import Mathlib

/-!
Verification development for the consensus core of the rusty-jiopad repository
(`src/consensus/core` and its hash/math support crates).

The Rust sources are shallowly embedded: hashes are 256-bit natural numbers
(the big-endian value of the 32-byte array, so that the derived lexicographic
order on byte arrays coincides with the numeric order), machine integers are
naturals reduced modulo 2^w at the points where the Rust code can overflow,
stateful methods become explicit state-passing functions, and the concurrent
maps (DashMap / HashMap) become association lists with first-match lookup.
Loops that the Rust code runs to completion are given explicit fuel that is
provably sufficient.
-/

/-! ## 32-bit arithmetic helpers (two-complement u32 as Nat mod 2^32) -/

def w32 (x : Nat) : Nat := x % 4294967296

def add32 (x y : Nat) : Nat := w32 (x + y)

def rotr32 (n x : Nat) : Nat :=
  w32 (Nat.lor (Nat.shiftRight x n) (Nat.shiftLeft x (32 - n)))

def shr32 (n x : Nat) : Nat := Nat.shiftRight x n

def not32 (x : Nat) : Nat := Nat.xor x 4294967295

/-! ## SHA-256 (the `sha2` crate used by `hashing::hash_data`) -/

def sha256K : List Nat :=
  [1116352408, 1899447441, 3049323471, 3921009573, 961987163,
   1508970993, 2453635748, 2870763221, 3624381080, 310598401,
   607225278, 1426881987, 1925078388, 2162078206, 2614888103,
   3248222580, 3835390401, 4022224774, 264347078, 604807628,
   770255983, 1249150122, 1555081692, 1996064986, 2554220882,
   2821834349, 2952996808, 3210313671, 3336571891, 3584528711,
   113926993, 338241895, 666307205, 773529912, 1294757372,
   1396182291, 1695183700, 1986661051, 2177026350, 2456956037,
   2730485921, 2820302411, 3259730800, 3345764771, 3516065817,
   3600352804, 4094571909, 275423344, 430227734, 506948616,
   659060556, 883997877, 958139571, 1322822218, 1537002063,
   1747873779, 1955562222, 2024104815, 2227730452, 2361852424,
   2428436474, 2756734187, 3204031479, 3329325298]

def sha256H0 : List Nat :=
  [1779033703, 3144134277, 1013904242, 2773480762, 1359893119,
   2600822924, 528734635, 1541459225]

def bigS0 (x : Nat) : Nat := Nat.xor (rotr32 2 x) (Nat.xor (rotr32 13 x) (rotr32 22 x))

def bigS1 (x : Nat) : Nat := Nat.xor (rotr32 6 x) (Nat.xor (rotr32 11 x) (rotr32 25 x))

def smallS0 (x : Nat) : Nat := Nat.xor (rotr32 7 x) (Nat.xor (rotr32 18 x) (shr32 3 x))

def smallS1 (x : Nat) : Nat := Nat.xor (rotr32 17 x) (Nat.xor (rotr32 19 x) (shr32 10 x))

def chFn (e f g : Nat) : Nat := Nat.xor (Nat.land e f) (Nat.land (not32 e) g)

def majFn (a b c : Nat) : Nat :=
  Nat.xor (Nat.land a b) (Nat.xor (Nat.land a c) (Nat.land b c))

/-- Big-endian byte rendering of a value into `n` bytes. -/
def beBytes (n v : Nat) : List Nat :=
  (List.range n).map (fun i => (Nat.shiftRight v (8 * (n - 1 - i))) % 256)

/-- Little-endian byte rendering of a value into `n` bytes
(Rust `to_le_bytes` after the implicit modular truncation). -/
def leBytes (n v : Nat) : List Nat :=
  (List.range n).map (fun i => (Nat.shiftRight v (8 * i)) % 256)

/-- Big-endian interpretation of a byte list. -/
def beNat (bs : List Nat) : Nat := bs.foldl (fun acc b => acc * 256 + b) 0

/-- Split a list into chunks of `n` (the last chunk may be short).
Structural fuel recursion so the kernel can evaluate it; the fuel is the
list length, which always suffices for `n > 0`. -/
def chunksOfAux (n : Nat) : Nat → List Nat → List (List Nat)
  | _, [] => []
  | 0, l => [l]
  | fuel + 1, l => (l.take n) :: chunksOfAux n fuel (l.drop n)

def chunksOf (n : Nat) (l : List Nat) : List (List Nat) :=
  if n = 0 then [l] else chunksOfAux n l.length l

/-- SHA-256 padding: append 0x80, zeros, and the 64-bit big-endian bit length. -/
def sha256Pad (msg : List Nat) : List Nat :=
  msg ++ [0x80] ++ List.replicate ((64 - ((msg.length + 9) % 64)) % 64) 0
      ++ beBytes 8 (8 * msg.length)

/-- First 16 schedule words of a 64-byte block (big-endian 32-bit words). -/
def blockWords (block : List Nat) : List Nat :=
  (chunksOf 4 block).map beNat

/-- Extend the message schedule from 16 to 64 words. -/
def extendSchedule : Nat → List Nat → List Nat
  | 0, w => w
  | n + 1, w =>
    let t := w.length
    let nw := add32 (smallS1 (w.getD (t - 2) 0))
      (add32 (w.getD (t - 7) 0) (add32 (smallS0 (w.getD (t - 15) 0)) (w.getD (t - 16) 0)))
    extendSchedule n (w ++ [nw])

structure Sha256Regs where
  ra : Nat
  rb : Nat
  rc : Nat
  rd : Nat
  re : Nat
  rf : Nat
  rg : Nat
  rh : Nat
deriving Repr, DecidableEq

def sha256Round (regs : Sha256Regs) (kw : Nat × Nat) : Sha256Regs :=
  let t1 := add32 regs.rh (add32 (bigS1 regs.re)
    (add32 (chFn regs.re regs.rf regs.rg) (add32 kw.1 kw.2)))
  let t2 := add32 (bigS0 regs.ra) (majFn regs.ra regs.rb regs.rc)
  { ra := add32 t1 t2, rb := regs.ra, rc := regs.rb, rd := regs.rc,
    re := add32 regs.rd t1, rf := regs.re, rg := regs.rf, rh := regs.rg }

def sha256Compress (h : List Nat) (block : List Nat) : List Nat :=
  let w := extendSchedule 48 (blockWords block)
  let init : Sha256Regs :=
    { ra := h.getD 0 0, rb := h.getD 1 0, rc := h.getD 2 0, rd := h.getD 3 0,
      re := h.getD 4 0, rf := h.getD 5 0, rg := h.getD 6 0, rh := h.getD 7 0 }
  let fin := (sha256K.zip w).foldl sha256Round init
  [add32 (h.getD 0 0) fin.ra, add32 (h.getD 1 0) fin.rb,
   add32 (h.getD 2 0) fin.rc, add32 (h.getD 3 0) fin.rd,
   add32 (h.getD 4 0) fin.re, add32 (h.getD 5 0) fin.rf,
   add32 (h.getD 6 0) fin.rg, add32 (h.getD 7 0) fin.rh]

/-- SHA-256 digest of a byte list, as 32 bytes. -/
def sha256 (msg : List Nat) : List Nat :=
  let final := (chunksOf 64 (sha256Pad msg)).foldl sha256Compress sha256H0
  (final.map (beBytes 4)).flatten

set_option maxRecDepth 100000

/-! ## Association-list maps

`DashMap` / `HashMap` are embedded as association lists: `lookupA` finds the
first entry (so prepending an entry is the map's overwriting insert), and
`eraseKey` removes the (first) entry of a key, matching `HashMap::remove`. -/

def lookupA {κ α : Type} [DecidableEq κ] : List (κ × α) → κ → Option α
  | [], _ => none
  | (k, v) :: rest, h => if h = k then some v else lookupA rest h

def eraseKey {κ α : Type} [DecidableEq κ] : List (κ × α) → κ → List (κ × α)
  | [], _ => []
  | (k, v) :: rest, h => if h = k then rest else (k, v) :: eraseKey rest h

/-! ## Hashes

`jio_hashes::Hash` is a 32-byte array compared lexicographically; it is
embedded as the big-endian natural number of those bytes (< 2^256), under
which the derived lexicographic order is the numeric order and the all-zero
default hash is `0`.  `Hash::as_bytes` is `beBytes 32`. -/

/-- `hashing::hash_data`: SHA-256 of a byte string, as a 256-bit value. -/
def hash_data (data : List Nat) : Nat := beNat (sha256 data)

/-- `hashing::hash_block_header` (same as `hash_data`). -/
def hash_block_header (data : List Nat) : Nat := hash_data data

/-- `hashing::hash_merkle_root`: SHA-256 of the concatenation of the
transaction hashes' 32-byte representations. -/
def hash_merkle_root (hashes : List Nat) : Nat :=
  hash_data ((hashes.map (beBytes 32)).flatten)

/-- `hashing::double_sha256`. -/
def double_sha256 (data : List Nat) : Nat := hash_data (beBytes 32 (hash_data data))

/-! ## Errors (`errors.rs`, `utxo_error.rs`) -/

inductive ConsensusError where
  | MerkleRootMismatch
  | NoValidParent
  | NoCommonAncestor
  | NoTips
deriving DecidableEq, Repr

inductive UtxoError where
  | NotFound (outpoint : Nat × Nat)
  | AlreadySpent (outpoint : Nat × Nat)
deriving DecidableEq, Repr

/-! ## Header and Block (`header.rs`, `block.rs`) -/

structure Header where
  version : Nat
  parents_by_level : List (List Nat)
  merkle_root : Nat
  timestamp : Nat
  bits : Nat
  nonce : Nat
  daa_score : Nat
  blue_score : Nat
  blue_work : Nat
  pruning_point : Nat
deriving DecidableEq, Repr

/-- `Header::new()`. -/
def Header.new : Header :=
  { version := 1, parents_by_level := [[]], merkle_root := 0, timestamp := 0,
    bits := 0, nonce := 0, daa_score := 0, blue_score := 0, blue_work := 0,
    pruning_point := 0 }

/-- The byte serialization built by `Header::hash_with_nonce`.  Field values
are reduced to their machine width exactly as `to_le_bytes` does; `blue_work`
is `Uint192` and serializes to 24 little-endian bytes. -/
def serializeHeader (h : Header) (nonce : Nat) : List Nat :=
  leBytes 2 h.version
    ++ leBytes 4 h.parents_by_level.length
    ++ (h.parents_by_level.map
        (fun level => leBytes 4 level.length ++ (level.map (beBytes 32)).flatten)).flatten
    ++ beBytes 32 h.merkle_root
    ++ leBytes 8 h.timestamp
    ++ leBytes 4 h.bits
    ++ leBytes 8 nonce
    ++ leBytes 8 h.daa_score
    ++ leBytes 8 h.blue_score
    ++ leBytes 24 h.blue_work
    ++ beBytes 32 h.pruning_point

def Header.hash_with_nonce (h : Header) (nonce : Nat) : Nat :=
  hash_block_header (serializeHeader h nonce)

def Header.hash (h : Header) : Nat := h.hash_with_nonce h.nonce

/-- GhostDAG verdict data (`ghostdag.rs`); `blues_anticone_sizes` is a
`HashMap<Hash, u64>` embedded as an association list. -/
structure GhostDagData where
  blue_score : Nat
  blue_work : Nat
  selected_parent : Nat
  merge_set_blues : List Nat
  merge_set_reds : List Nat
  blues_anticone_sizes : List (Nat × Nat)
deriving DecidableEq, Repr

structure Block where
  header : Header
  transactions : List Nat
  ghostdag_data : Option GhostDagData
deriving DecidableEq, Repr

def Block.new (header : Header) (transactions : List Nat) : Block :=
  { header := header, transactions := transactions, ghostdag_data := none }

def Block.hash (b : Block) : Nat := b.header.hash

def Block.is_genesis (b : Block) : Bool :=
  b.header.parents_by_level.all (fun level => level.isEmpty)

/-- `Block::validate`. -/
def Block.validate (b : Block) : Except ConsensusError Unit :=
  if b.header.merkle_root ≠ hash_merkle_root b.transactions then
    .error .MerkleRootMismatch
  else
    .ok ()

/-! ## MuHash (`muhash.rs`)

The Rust code XORs the four little-endian `u64` limbs of the 32-byte state
with those of the element.  Limb-wise XOR of the byte arrays is exactly
bitwise XOR of the (big-endian) 256-bit values, because XOR acts per bit and
the limb split is a bit permutation, so the state is embedded as a natural
number and `add` is `Nat.xor`. -/

structure MuHash where
  state : Nat
deriving DecidableEq, Repr

def MuHash.new : MuHash := { state := 0 }

def MuHash.add (m : MuHash) (element : Nat) : MuHash := { state := Nat.xor m.state element }

def MuHash.remove (m : MuHash) (element : Nat) : MuHash := m.add element

def MuHash.finalize (m : MuHash) : Nat := m.state

/-- A sequence of `add` (`true`) / `remove` (`false`) operations applied in
order to a MuHash state. -/
def applyMuHashOps (m : MuHash) (ops : List (Bool × Nat)) : MuHash :=
  ops.foldl (fun st op => if op.1 then st.add op.2 else st.remove op.2) m

/-- XOR-fold of a list (helper for reasoning about MuHash). -/
def xorList (l : List Nat) : Nat := l.foldr Nat.xor 0

/-! ## UTXO collection and diff (`utxo_collection.rs`, `utxo_diff.rs`)

`OutPoint` is `(tx_hash, index)`.  The Rust methods mutate `&self` behind a
lock and return a `Result`; they are embedded as functions from the
collection to the (possibly partially updated) collection together with the
returned value, so a failure's effect on the state stays observable. -/

structure TxOutput where
  value : Nat
  script_pubkey : List Nat
deriving DecidableEq, Repr

structure UtxoCollection where
  utxos : List ((Nat × Nat) × TxOutput)
  muhash : MuHash
deriving DecidableEq, Repr

def UtxoCollection.new : UtxoCollection := { utxos := [], muhash := MuHash.new }

/-- `UtxoCollection::insert`. -/
def UtxoCollection.insert (c : UtxoCollection) (outpoint : Nat × Nat) (output : TxOutput) :
    UtxoCollection × Option UtxoError :=
  if (lookupA c.utxos outpoint).isSome then
    (c, some (.AlreadySpent outpoint))
  else
    ({ utxos := (outpoint, output) :: c.utxos, muhash := c.muhash.add outpoint.1 }, none)

/-- `UtxoCollection::remove`: deletes the entry if present and unfolds its
tx hash from the MuHash; never an error. -/
def UtxoCollection.remove (c : UtxoCollection) (outpoint : Nat × Nat) :
    UtxoCollection × Except UtxoError (Option TxOutput) :=
  let output := lookupA c.utxos outpoint
  let utxos1 := eraseKey c.utxos outpoint
  match output with
  | some out => ({ utxos := utxos1, muhash := c.muhash.remove outpoint.1 }, .ok (some out))
  | none => ({ utxos := utxos1, muhash := c.muhash }, .ok none)

def UtxoCollection.get (c : UtxoCollection) (outpoint : Nat × Nat) : Option TxOutput :=
  lookupA c.utxos outpoint

structure UtxoDiff where
  added : List ((Nat × Nat) × TxOutput)
  removed : List (Nat × Nat)
deriving DecidableEq, Repr

/-- The first loop of `apply_diff`: insert each added entry, stopping at the
first `AlreadySpent` error (entries inserted before it stay in place, as in
the Rust `?` early return on `&self`). -/
def apply_diff_add_loop (c : UtxoCollection) :
    List ((Nat × Nat) × TxOutput) → UtxoCollection × Option UtxoError
  | [] => (c, none)
  | (outpoint, output) :: rest =>
    match c.insert outpoint output with
    | (c1, none) => apply_diff_add_loop c1 rest
    | (c1, some e) => (c1, some e)

/-- The second loop of `apply_diff`: remove each outpoint (`remove` never
fails, so the loop always runs to completion). -/
def apply_diff_remove_loop (c : UtxoCollection) :
    List (Nat × Nat) → UtxoCollection × Option UtxoError
  | [] => (c, none)
  | outpoint :: rest =>
    match c.remove outpoint with
    | (c1, .ok _) => apply_diff_remove_loop c1 rest
    | (c1, .error e) => (c1, some e)

/-- `UtxoCollection::apply_diff`. -/
def UtxoCollection.apply_diff (c : UtxoCollection) (diff : UtxoDiff) :
    UtxoCollection × Option UtxoError :=
  match apply_diff_add_loop c diff.added with
  | (c1, some e) => (c1, some e)
  | (c1, none) => apply_diff_remove_loop c1 diff.removed

/-! ## GhostDAG engine (`ghostdag.rs`)

`GhostDag` holds the `k` parameter (`KType = u16`), the relations map and the
blue-scores map.  The `async` surface and the `DashMap`/`RwLock` sharing are
irrelevant to the sequential contract and are dropped; every fallible step of
`add_block` in the source in fact always returns `Ok`, so the embedding is
total.  The two BFS loops of the source are embedded with explicit fuel; the
fuel chosen in the wrappers below provably exceeds the number of loop
iterations, which is bounded by the queue plus one expansion per map entry. -/

structure BlockRelations where
  parents : List Nat
  children : List Nat
  is_blue : Bool
  blue_score : Nat
  selected_parent : Option Nat
  merge_set_blues : List Nat
  merge_set_reds : List Nat
deriving DecidableEq, Repr

structure GhostDag where
  k : Nat
  block_relations : List (Nat × BlockRelations)
  blue_scores : List (Nat × Nat)
deriving DecidableEq, Repr

def GhostDag.new (k : Nat) : GhostDag := { k := k, block_relations := [], blue_scores := [] }

/-- Children list of a block per the relations map (missing entry: none). -/
def childrenOf (g : List (Nat × BlockRelations)) (h : Nat) : List Nat :=
  match lookupA g h with
  | some r => r.children
  | none => []

/-- Parents list of a block per the relations map (missing entry: none). -/
def parentsOf (g : List (Nat × BlockRelations)) (h : Nat) : List Nat :=
  match lookupA g h with
  | some r => r.parents
  | none => []

/-- Total length of `proj`-edges of map entries whose key is not yet visited;
an upper bound on the queue growth a BFS can still produce. -/
def edgeBudget (g : List (Nat × BlockRelations)) (proj : BlockRelations → List Nat)
    (visited : List Nat) : Nat :=
  ((g.filter (fun e => decide (e.1 ∉ visited))).map (fun e => (proj e.2).length)).sum

/-- Generic queue/visited BFS skeleton shared by both source loops: pop from
the front, skip nodes already visited or excluded, otherwise visit the node
and push its successors at the back.  Returns the visited list in visit
order. -/
def bfsAux (succ : Nat → List Nat) (excl : List Nat) :
    Nat → List Nat → List Nat → List Nat
  | 0, _, visited => visited
  | _ + 1, [], visited => visited
  | fuel + 1, current :: rest, visited =>
    if current ∈ visited ∨ current ∈ excl then
      bfsAux succ excl fuel rest visited
    else
      bfsAux succ excl fuel (rest ++ succ current) (visited ++ [current])

/-- The loop of `GhostDag::calculate_anticone_size_optimized`: walk the
future (children closure) of `block_hash`, skipping the `visited` exclusion
set, counting every reached node other than `block_hash` itself. -/
def calculate_anticone_size_aux (g : List (Nat × BlockRelations)) (excl : List Nat)
    (block_hash : Nat) : Nat → List Nat → List Nat → Nat → Nat
  | 0, _, _, size => size
  | _ + 1, [], _, size => size
  | fuel + 1, current :: rest, visited_local, size =>
    if current ∈ visited_local ∨ current ∈ excl then
      calculate_anticone_size_aux g excl block_hash fuel rest visited_local size
    else
      calculate_anticone_size_aux g excl block_hash fuel (rest ++ childrenOf g current)
        (visited_local ++ [current]) (if current ≠ block_hash then size + 1 else size)

/-- Fuel that provably exceeds the iteration count of a children-walking BFS
started from `queue`. -/
def childFuel (g : List (Nat × BlockRelations)) (queue : List Nat) : Nat :=
  queue.length + edgeBudget g (fun r => r.children) [] + 1

/-- `GhostDag::calculate_anticone_size_optimized` (the `visited` parameter is
the exclusion set of the source). -/
def calculate_anticone_size_optimized (g : List (Nat × BlockRelations))
    (block_hash : Nat) (visited : List Nat) : Nat :=
  calculate_anticone_size_aux g visited block_hash (childFuel g [block_hash]) [block_hash] [] 0

/-- The loop of `GhostDag::calculate_blue_set`: BFS over the parents closure
of the new block, classifying each first-visited node as blue iff its
anticone size (children-closure size with no exclusions) is at most `k`. -/
def calculate_blue_set_aux (g : List (Nat × BlockRelations)) (k : Nat) :
    Nat → List Nat → List Nat → List Nat → List Nat → List Nat × List Nat
  | 0, _, _, blue_set, red_set => (blue_set, red_set)
  | _ + 1, [], _, blue_set, red_set => (blue_set, red_set)
  | fuel + 1, current :: rest, visited, blue_set, red_set =>
    if current ∈ visited then
      calculate_blue_set_aux g k fuel rest visited blue_set red_set
    else if calculate_anticone_size_optimized g current [] ≤ k then
      calculate_blue_set_aux g k fuel (rest ++ parentsOf g current)
        (visited ++ [current]) (blue_set ++ [current]) red_set
    else
      calculate_blue_set_aux g k fuel (rest ++ parentsOf g current)
        (visited ++ [current]) blue_set (red_set ++ [current])

/-- Fuel that provably exceeds the iteration count of the parents-walking
classification BFS. -/
def parentFuel (g : List (Nat × BlockRelations)) (queue : List Nat) : Nat :=
  queue.length + edgeBudget g (fun r => r.parents) [] + 1

/-- `GhostDag::calculate_blue_set` (the unused `block` argument of the source
is dropped). -/
def calculate_blue_set (g : List (Nat × BlockRelations)) (k : Nat)
    (parents : List Nat) : List Nat × List Nat :=
  calculate_blue_set_aux g k (parentFuel g parents) parents [] [] []

/-- Blue score used for parent selection:
`self.blue_scores.get(parent).map(|s| *s).unwrap_or(0)`. -/
def blue_score_of (s : GhostDag) (h : Nat) : Nat := (lookupA s.blue_scores h).getD 0

/-- `GhostDag::select_parent`: `max_by_key` over the parents by stored blue
score.  Both the std and the rayon iterator return the **latest** of equally
maximal elements, which the fold below reproduces; genesis (no parents) gets
the all-zero hash. -/
def select_parent (s : GhostDag) (parents : List Nat) : Nat :=
  match parents with
  | [] => 0
  | p :: rest =>
    rest.foldl (fun best q => if blue_score_of s best ≤ blue_score_of s q then q else best) p

/-- `GhostDag::calculate_blue_work_proper`: accumulates 1 per blue block into
a `u128` and truncates to `u64` (`total_work as u64`). -/
def calculate_blue_work_proper (blue_set : List Nat) : Nat :=
  (blue_set.length % (2 ^ 128)) % (2 ^ 64)

/-- `GhostDag::calculate_blues_anticone_sizes`: one anticone size per blue
block, with the parents of the new block as the exclusion set; `HashMap`
insertion is the shadowing prepend. -/
def calculate_blues_anticone_sizes (g : List (Nat × BlockRelations))
    (blue_set : List Nat) (parents : List Nat) : List (Nat × Nat) :=
  blue_set.foldl (fun sizes b => (b, calculate_anticone_size_optimized g b parents) :: sizes) []

/-- Append `child` to the children list of the (first) map entry keyed
`parent`, if present (`block_relations.get_mut` + push). -/
def push_child : List (Nat × BlockRelations) → Nat → Nat → List (Nat × BlockRelations)
  | [], _, _ => []
  | (k, r) :: rest, parent, child =>
    if parent = k then (k, { r with children := r.children ++ [child] }) :: rest
    else (k, r) :: push_child rest parent child

/-- `GhostDag::add_block`, step by step in source order: classify the parents
closure, select the parent, derive blue work and blue score, commit the
relations and blue score, register the block as a child of each parent, and
finally compute the blues' anticone sizes on the updated graph. -/
def add_block (s : GhostDag) (block : Block) : GhostDag × GhostDagData :=
  let all_parents := block.header.parents_by_level.flatten
  let bs := calculate_blue_set s.block_relations s.k all_parents
  let blue_set := bs.1
  let red_set := bs.2
  let selected_parent := select_parent s all_parents
  let blue_work := calculate_blue_work_proper blue_set
  let blue_score := blue_set.length
  let relations : BlockRelations :=
    { parents := all_parents, children := [],
      is_blue := decide (block.hash ∈ blue_set), blue_score := blue_score,
      selected_parent := some selected_parent,
      merge_set_blues := blue_set, merge_set_reds := red_set }
  let rel1 := (block.hash, relations) :: s.block_relations
  let scores1 := (block.hash, blue_score) :: s.blue_scores
  let rel2 := all_parents.foldl (fun g p => push_child g p block.hash) rel1
  let blues_anticone_sizes := calculate_blues_anticone_sizes rel2 blue_set all_parents
  ({ k := s.k, block_relations := rel2, blue_scores := scores1 },
   { blue_score := blue_score, blue_work := blue_work,
     selected_parent := selected_parent, merge_set_blues := blue_set,
     merge_set_reds := red_set, blues_anticone_sizes := blues_anticone_sizes })

def GhostDag.get_blue_score (s : GhostDag) (h : Nat) : Option Nat := lookupA s.blue_scores h

def GhostDag.get_relations (s : GhostDag) (h : Nat) : Option BlockRelations :=
  lookupA s.block_relations h

/-! ## Chain selector (`chain_selection.rs`)

The selected-parent walks of the source are `while` loops that follow
`selected_parent` pointers; they are embedded with fuel, `none` standing for
a walk that did not finish within the fuel (the Rust loop would still be
running).  Theorems take the natural completion of the walk as a
hypothesis. -/

structure VirtualState where
  selected_tip : Nat
  blue_score : Nat
  daa_score : Nat
  merge_set : List Nat
deriving DecidableEq, Repr

/-- `VirtualState::default()`. -/
def VirtualState.initial : VirtualState :=
  { selected_tip := 0, blue_score := 0, daa_score := 0, merge_set := [] }

/-- `ChainSelector::update_virtual_state` (the state rewrite applied to the
current `VirtualState`). -/
def update_virtual_state (state : VirtualState) (new_block : Block) : VirtualState :=
  if new_block.header.blue_score > state.blue_score then
    { selected_tip := new_block.hash,
      blue_score := new_block.header.blue_score,
      daa_score := new_block.header.daa_score,
      merge_set := (new_block.ghostdag_data.map (fun d => d.merge_set_blues)).getD [] }
  else state

/-- The selected-parent chain starting at `h` (inclusive), following
`selected_parent` pointers until a block is unknown or has no pointer;
`none` if the walk does not finish within the fuel. -/
def selected_chain (s : GhostDag) : Nat → Nat → Option (List Nat)
  | 0, _ => none
  | fuel + 1, h =>
    match s.get_relations h with
    | none => some [h]
    | some r =>
      match r.selected_parent with
      | none => some [h]
      | some p => (selected_chain s fuel p).map (h :: ·)

/-- The second loop of `ChainSelector::find_common_ancestor`: walk from
`block2` until a hash in `ancestors1` appears; a missing relation or pointer
breaks the loop into the `NoCommonAncestor` error. -/
def find_common_walk (s : GhostDag) (ancestors1 : List Nat) :
    Nat → Nat → Option (Except ConsensusError Nat)
  | 0, _ => none
  | fuel + 1, current =>
    if current ∈ ancestors1 then some (.ok current)
    else
      match s.get_relations current with
      | some r =>
        match r.selected_parent with
        | some p => find_common_walk s ancestors1 fuel p
        | none => some (.error .NoCommonAncestor)
      | none => some (.error .NoCommonAncestor)

/-- `ChainSelector::find_common_ancestor`. -/
def find_common_ancestor (s : GhostDag) (fuel : Nat) (block1 block2 : Nat) :
    Option (Except ConsensusError Nat) :=
  match selected_chain s fuel block1 with
  | none => none
  | some ancestors1 => find_common_walk s ancestors1 fuel block2

/-- One chain-collecting loop of `ChainSelector::calculate_reorg_path`: push
blocks from `current` down to (exclusive) `common`, a missing relation or
pointer breaking the loop after the push. -/
def chain_down (s : GhostDag) (common : Nat) : Nat → Nat → Option (List Nat)
  | 0, _ => none
  | fuel + 1, current =>
    if current = common then some []
    else
      match s.get_relations current with
      | some r =>
        match r.selected_parent with
        | some p => (chain_down s common fuel p).map (current :: ·)
        | none => some [current]
      | none => some [current]

/-- `ChainSelector::calculate_reorg_path`, returning `(added, removed)`. -/
def calculate_reorg_path (s : GhostDag) (fuel : Nat) (old_tip new_tip : Nat) :
    Option (Except ConsensusError (List Nat × List Nat)) :=
  match find_common_ancestor s fuel old_tip new_tip with
  | none => none
  | some (.error e) => some (.error e)
  | some (.ok common) =>
    match chain_down s common fuel old_tip, chain_down s common fuel new_tip with
    | some removed, some added => some (.ok (added.reverse, removed))
    | _, _ => none

/-- `ChainSelector::calculate_virtual_state_for_tip`. -/
def calculate_virtual_state_for_tip (s : GhostDag) (tip : Nat) : VirtualState :=
  { selected_tip := tip,
    blue_score := (s.get_blue_score tip).getD 0,
    daa_score :=
      match s.get_relations tip with
      | some r => r.blue_score
      | none => 0,
    merge_set :=
      match s.get_relations tip with
      | some r => r.merge_set_blues
      | none => [] }

/-- `ChainSelector::handle_reorg`: compute the reorg path, then overwrite the
virtual state with the state for `new_tip`. -/
def handle_reorg (s : GhostDag) (fuel : Nat) (old_tip new_tip : Nat) :
    Option (Except ConsensusError VirtualState) :=
  match calculate_reorg_path s fuel old_tip new_tip with
  | none => none
  | some (.error e) => some (.error e)
  | some (.ok _) => some (.ok (calculate_virtual_state_for_tip s new_tip))

/-! ## Spec-side definitions (for comparing code behaviour with the spec) -/

/-- Modelled from the spec (claim C1): the selected parent is the element of
`parents_level0` with the maximum blue score, ties broken by larger blue
work, then by smaller hash.  The engine stores no per-block blue work, so
the blue-work tiebreak is modelled with all blue works equal and the
hash tiebreak decides. -/
def spec_select_parent (s : GhostDag) (parents_level0 : List Nat) : Option Nat :=
  match parents_level0 with
  | [] => none
  | p :: rest =>
    some (rest.foldl
      (fun best q =>
        if blue_score_of s q > blue_score_of s best then q
        else if blue_score_of s q = blue_score_of s best ∧ q < best then q
        else best) p)

/-- Modelled from the spec (claim C2): the past cone of a block is everything
reachable from its parents (inclusive) through parent links. -/
def spec_past_cone (g : List (Nat × BlockRelations)) (fuel : Nat) (h : Nat) : List Nat :=
  bfsAux (parentsOf g) [] fuel (parentsOf g h) []

/-- Modelled from the spec (claim C5): the trigger under which
`update_virtual_state` is claimed to rewrite the state.  `VirtualState`
stores no blue work, so the current blue work is an explicit argument. -/
def spec_update_condition (state : VirtualState) (current_blue_work : Nat) (b : Block) : Prop :=
  b.header.blue_score > state.blue_score ∨
    (b.header.blue_score = state.blue_score ∧ b.header.blue_work > current_blue_work) ∨
    (b.header.blue_score = state.blue_score ∧ b.header.blue_work = current_blue_work ∧
      b.hash < state.selected_tip)

instance (state : VirtualState) (w : Nat) (b : Block) :
    Decidable (spec_update_condition state w b) := by
  unfold spec_update_condition
  infer_instance

/-! ## Reachability

`ReachVia succ excl a x`: there is a path from `a` to `x` along `succ` edges
all of whose nodes avoid `excl`.  This is what the BFS loops of the source
compute, and the vocabulary in which the merge-set and anticone claims are
settled. -/

inductive ReachVia (succ : Nat → List Nat) (excl : List Nat) : Nat → Nat → Prop
  | refl (a : Nat) : a ∉ excl → ReachVia succ excl a a
  | tail (a b c : Nat) : ReachVia succ excl a b → c ∈ succ b → c ∉ excl →
      ReachVia succ excl a c

/-- Successor function read off an association-list relations map. -/
def succOf (g : List (Nat × BlockRelations)) (proj : BlockRelations → List Nat)
    (h : Nat) : List Nat :=
  match lookupA g h with
  | some r => proj r
  | none => []

/-! ## Concrete fixtures (used by counterexamples and witnesses) -/

/-- A block with the default header and no transactions (a genesis block). -/
def gBlock : Block := Block.new Header.new []

def dag0 : GhostDag := GhostDag.new 18

def dagG : GhostDag := (add_block dag0 gBlock).1

/-- A child of `gBlock` (level-0 parent list `[gBlock.hash]`). -/
def aBlock : Block :=
  Block.new { Header.new with parents_by_level := [[gBlock.hash]] } []

def dagA : GhostDag := (add_block dagG aBlock).1

/-- A child of `aBlock`. -/
def bBlock : Block :=
  Block.new { Header.new with parents_by_level := [[aBlock.hash]] } []

/-- A block whose two level-0 parents `1 < 2` are unknown to the engine, so
both have blue score 0: a blue-score tie. -/
def xBlock : Block :=
  Block.new { Header.new with parents_by_level := [[1, 2]] } []

/-- A block with the virtual-default blue score 0 but positive blue work and
a distinctive DAA score. -/
def cBlock : Block :=
  Block.new { Header.new with daa_score := 7, blue_work := 5 } []

def outpoint1 : Nat × Nat := (1, 0)

def outpoint2 : Nat × Nat := (2, 0)

def outpointMissing : Nat × Nat := (3, 0)

def output100 : TxOutput := { value := 100, script_pubkey := [] }

def output50 : TxOutput := { value := 50, script_pubkey := [] }

/-- The collection `{outpoint1 -> output100}`, built by a real insert. -/
def collection1 : UtxoCollection := (UtxoCollection.new.insert outpoint1 output100).1

/-- The diff `{added: [(outpoint2, output50)], removed: [outpointMissing]}`
of the spec's atomicity test, whose removed outpoint is absent. -/
def diffMissing : UtxoDiff := { added := [(outpoint2, output50)], removed := [outpointMissing] }

/-- A five-block selected-parent graph: two chains `G <- A <- T1` and
`G <- B <- T2` hanging off the common ancestor `G = 10`, for the reorg
claim.  Only the `selected_parent` pointers matter to the chain walks. -/
def reorgRelations (parent : Option Nat) : BlockRelations :=
  { parents := [], children := [], is_blue := true, blue_score := 0,
    selected_parent := parent, merge_set_blues := [], merge_set_reds := [] }

def reorgDag : GhostDag :=
  { k := 18,
    block_relations :=
      [(10, reorgRelations none),
       (11, reorgRelations (some 10)), (12, reorgRelations (some 11)),
       (21, reorgRelations (some 10)), (22, reorgRelations (some 21))],
    blue_scores := [] }

instance {ε α : Type} [DecidableEq ε] [DecidableEq α] : DecidableEq (Except ε α) := fun x y =>
  match x, y with
  | .ok a, .ok b =>
    if h : a = b then isTrue (by rw [h]) else isFalse (by intro hc; cases hc; exact h rfl)
  | .error a, .error b =>
    if h : a = b then isTrue (by rw [h]) else isFalse (by intro hc; cases hc; exact h rfl)
  | .ok _, .error _ => isFalse (by intro hc; cases hc)
  | .error _, .ok _ => isFalse (by intro hc; cases hc)

/-! # Theorems -/

/-! ## Nat.xor restatements (the embedding writes `Nat.xor` explicitly) -/

theorem natXor_assoc (a b c : Nat) : Nat.xor (Nat.xor a b) c = Nat.xor a (Nat.xor b c) :=
  Nat.xor_assoc a b c

theorem natXor_comm (a b : Nat) : Nat.xor a b = Nat.xor b a :=
  Nat.xor_comm a b

theorem natXor_self (a : Nat) : Nat.xor a a = 0 :=
  Nat.xor_self a

theorem natXor_zero (a : Nat) : Nat.xor a 0 = a :=
  Nat.xor_zero a

theorem natZero_xor (a : Nat) : Nat.xor 0 a = a :=
  Nat.zero_xor a

/-! ## Association-list lemmas -/

theorem lookupA_none_eraseKey {κ α : Type} [DecidableEq κ] (m : List (κ × α)) (h : κ)
    (hl : lookupA m h = none) : eraseKey m h = m := by
  induction m with
  | nil => rfl
  | cons e rest ih =>
    obtain ⟨k, v⟩ := e
    by_cases hk : h = k
    · simp [lookupA, hk] at hl
    · simp only [eraseKey, if_neg hk]
      simp only [lookupA, if_neg hk] at hl
      rw [ih hl]

/-! ## MuHash lemmas and claim C8 -/

theorem applyMuHashOps_cons (m : MuHash) (b : Bool) (x : Nat) (ops : List (Bool × Nat)) :
    applyMuHashOps m ((b, x) :: ops) = applyMuHashOps { state := Nat.xor m.state x } ops := by
  cases b <;> rfl

theorem applyMuHashOps_eq_xor (ops : List (Bool × Nat)) : ∀ m : MuHash,
    applyMuHashOps m ops = { state := Nat.xor m.state (xorList (ops.map Prod.snd)) } := by
  induction ops with
  | nil =>
    intro m
    show m = ({ state := Nat.xor m.state 0 } : MuHash)
    rw [natXor_zero]
  | cons e t ih =>
    intro m
    obtain ⟨b, x⟩ := e
    rw [applyMuHashOps_cons, ih]
    show _ = ({ state := Nat.xor m.state (Nat.xor x (xorList (t.map Prod.snd))) } : MuHash)
    rw [← natXor_assoc]

theorem xorList_erase (x : Nat) (l : List Nat) (hx : x ∈ l) :
    xorList l = Nat.xor x (xorList (l.erase x)) := by
  induction l with
  | nil => cases hx
  | cons y t ih =>
    by_cases hyx : y = x
    · subst hyx
      rw [List.erase_cons_head]
      rfl
    · have hxt : x ∈ t := by
        cases hx with
        | head => exact absurd rfl hyx
        | tail _ h => exact h
      have herase : (y :: t).erase x = y :: t.erase x := by
        rw [List.erase_cons]
        simp [hyx]
      rw [herase]
      show Nat.xor y (xorList t) = Nat.xor x (Nat.xor y (xorList (t.erase x)))
      rw [ih hxt, ← natXor_assoc, natXor_comm y x, natXor_assoc]

theorem xorList_zero_of_even_counts : ∀ n : Nat, ∀ l : List Nat, l.length ≤ n →
    (∀ x : Nat, l.count x % 2 = 0) → xorList l = 0 := by
  intro n
  induction n with
  | zero =>
    intro l hl _
    have : l = [] := List.eq_nil_of_length_eq_zero (Nat.le_zero.mp hl)
    simp [this, xorList]
  | succ n ih =>
    intro l hl hc
    match l with
    | [] => rfl
    | x :: t =>
      have hcx := hc x
      rw [List.count_cons_self] at hcx
      have hxt : x ∈ t := by
        rcases Nat.eq_zero_or_pos (t.count x) with h0 | hpos
        · omega
        · exact List.count_pos_iff.mp hpos
      have hstep : xorList (x :: t) = xorList (t.erase x) := by
        show Nat.xor x (xorList t) = _
        rw [xorList_erase x t hxt, ← natXor_assoc, natXor_self, natZero_xor]
      rw [hstep]
      apply ih (t.erase x)
      · have h1 : t.length + 1 ≤ n + 1 := by simpa using hl
        have h2 : (t.erase x).length = t.length - 1 := List.length_erase_of_mem hxt
        omega
      · intro y
        by_cases hyx : y = x
        · subst hyx
          rw [List.count_erase_self]
          omega
        · rw [List.count_erase_of_ne hyx]
          have := hc y
          rw [List.count_cons_of_ne hyx] at this
          exact this

theorem count_map_snd (l : List (Bool × Nat)) (z : Nat) :
    (l.map Prod.snd).count z = l.count (true, z) + l.count (false, z) := by
  induction l with
  | nil => rfl
  | cons e t ih =>
    obtain ⟨b, x⟩ := e
    simp only [List.map_cons, List.count_cons, ih]
    by_cases hx : x = z <;> cases b <;> simp [hx] <;> omega

/-- C8: for every initial MuHash state and every balanced sequence of add and
remove operations (each element removed exactly as often as it is added), the
final state equals the initial state; in particular `add x` then `remove x`
is the identity for every `x`. -/
theorem muhash_balanced_identity (m : MuHash) (ops : List (Bool × Nat))
    (hbal : ∀ x : Nat, ops.count (true, x) = ops.count (false, x)) :
    applyMuHashOps m ops = m ∧ ∀ x : Nat, (m.add x).remove x = m := by
  constructor
  · rw [applyMuHashOps_eq_xor]
    have hz : xorList (ops.map Prod.snd) = 0 := by
      apply xorList_zero_of_even_counts (ops.map Prod.snd).length _ le_rfl
      intro x
      rw [count_map_snd, ← hbal x]
      omega
    rw [hz, natXor_zero]
  · intro x
    show ({ state := Nat.xor (Nat.xor m.state x) x } : MuHash) = m
    rw [natXor_assoc, natXor_self, natXor_zero]

theorem muhash_balanced_identity_witness :
    applyMuHashOps { state := 3 } [(true, 5), (false, 5)] = { state := 3 } :=
  (muhash_balanced_identity { state := 3 } [(true, 5), (false, 5)]
    (by
      intro x
      by_cases h : x = 5
      · subst h; decide
      · simp [List.count_cons, h])).1

/-! ## Claim C10: remove on an absent outpoint -/

/-- C10: `UtxoCollection::remove` on an outpoint that is not present returns
`Ok(None)` and leaves the collection (UTXO map and MuHash commitment)
unchanged. -/
theorem remove_absent_outpoint (c : UtxoCollection) (outpoint : Nat × Nat)
    (h : c.get outpoint = none) :
    c.remove outpoint = (c, Except.ok none) := by
  have h' : lookupA c.utxos outpoint = none := h
  simp [UtxoCollection.remove, h', lookupA_none_eraseKey _ _ h']

theorem remove_absent_outpoint_witness :
    collection1.remove outpointMissing = (collection1, Except.ok none) :=
  remove_absent_outpoint collection1 outpointMissing (by decide)

/-! ## Claim C9: block validation against the merkle commitment -/

/-- C9 (amended): `Block::validate` succeeds exactly when the header's
`merkle_root` equals `hash_merkle_root(transactions)` — a flat SHA-256 of the
concatenated transaction hashes, not a binary merkle tree — and otherwise
fails with `MerkleRootMismatch`; for an empty transaction list the reference
value is the SHA-256 of the empty byte string, which is not the all-zero
hash. -/
theorem validate_merkle (b : Block) :
    (b.validate = Except.ok () ↔ b.header.merkle_root = hash_merkle_root b.transactions) ∧
    (b.header.merkle_root ≠ hash_merkle_root b.transactions →
      b.validate = Except.error ConsensusError.MerkleRootMismatch) ∧
    (b.transactions = [] →
      (b.validate = Except.ok () ↔ b.header.merkle_root = hash_data [])) ∧
    hash_data [] ≠ 0 := by
  refine ⟨?_, ?_, ?_, by decide⟩
  · by_cases hm : b.header.merkle_root = hash_merkle_root b.transactions <;>
      simp [Block.validate, hm]
  · intro hm
    simp [Block.validate, hm]
  · intro ht
    have : hash_merkle_root b.transactions = hash_data [] := by rw [ht]; rfl
    rw [← this]
    by_cases hm : b.header.merkle_root = hash_merkle_root b.transactions <;>
      simp [Block.validate, hm]

theorem validate_merkle_witness :
    gBlock.validate = Except.error ConsensusError.MerkleRootMismatch :=
  (validate_merkle gBlock).2.1 (by decide)

/-- Counterexample to C9 as stated: the genesis-style block has no
transactions and the all-zero merkle root, so the claim says it validates,
but `Block::validate` rejects it with `MerkleRootMismatch` (the reference
value for an empty list is SHA-256 of the empty string, not zero). -/
theorem validate_merkle_counterexample :
    gBlock.transactions = [] ∧ gBlock.header.merkle_root = 0 ∧
    gBlock.validate = Except.error ConsensusError.MerkleRootMismatch := by
  decide

/-! ## Claim C5: virtual state update rule -/

/-- C5 (amended): `update_virtual_state` rewrites the `VirtualState` (tip,
scores from the header, merge set from the block's GhostDagData) exactly when
the new block's blue score is strictly greater than the current one; there is
no blue-work or hash tie-breaking — in every other case, ties included, the
state is unchanged. -/
theorem update_virtual_state_spec (state : VirtualState) (b : Block) :
    (b.header.blue_score > state.blue_score →
      update_virtual_state state b =
        { selected_tip := b.hash, blue_score := b.header.blue_score,
          daa_score := b.header.daa_score,
          merge_set := (b.ghostdag_data.map (fun d => d.merge_set_blues)).getD [] }) ∧
    (¬ b.header.blue_score > state.blue_score →
      update_virtual_state state b = state) := by
  constructor <;> intro h <;> simp [update_virtual_state, h]

theorem update_virtual_state_spec_witness :
    update_virtual_state VirtualState.initial cBlock = VirtualState.initial :=
  (update_virtual_state_spec VirtualState.initial cBlock).2 (by decide)

/-- Counterexample to C5 as stated: `cBlock` ties the current blue score (0)
with strictly greater blue work (5 > 0), so the claim's trigger fires, but
the code leaves the state untouched (visible on `daa_score`: the claim's
rewrite would set it to 7). -/
theorem update_virtual_state_counterexample :
    spec_update_condition VirtualState.initial 0 cBlock ∧
    update_virtual_state VirtualState.initial cBlock = VirtualState.initial ∧
    VirtualState.initial.daa_score ≠ cBlock.header.daa_score := by
  decide

/-! ## Claim C7: apply_diff ordering, failure condition, and (non-)atomicity -/

theorem apply_diff_add_loop_none_iff : ∀ (adds : List ((Nat × Nat) × TxOutput))
    (c : UtxoCollection),
    (apply_diff_add_loop c adds).2 = none ↔
      ∀ l1 e l2, adds = l1 ++ e :: l2 → lookupA (l1.reverse ++ c.utxos) e.1 = none := by
  intro adds
  induction adds with
  | nil =>
    intro c
    constructor
    · intro _ l1 e l2 hsplit
      cases l1 <;> simp at hsplit
    · intro _
      rfl
  | cons a rest ih =>
    intro c
    cases hl : lookupA c.utxos a.1 with
    | some v =>
      have hloop : apply_diff_add_loop c (a :: rest) = (c, some (.AlreadySpent a.1)) := by
        obtain ⟨op, out⟩ := a
        simp only [apply_diff_add_loop, UtxoCollection.insert]
        rw [hl]
        rfl
      rw [hloop]
      constructor
      · intro h; cases h
      · intro h
        have := h [] a rest rfl
        simp only [List.reverse_nil, List.nil_append] at this
        rw [hl] at this
        cases this
    | none =>
      have hc1 : c.insert a.1 a.2 =
          ({ utxos := (a.1, a.2) :: c.utxos, muhash := c.muhash.add a.1.1 }, none) := by
        simp only [UtxoCollection.insert]
        rw [hl]
        simp
      have hloop : apply_diff_add_loop c (a :: rest) =
          apply_diff_add_loop { utxos := (a.1, a.2) :: c.utxos, muhash := c.muhash.add a.1.1 } rest := by
        obtain ⟨op, out⟩ := a
        simp only [apply_diff_add_loop]
        rw [show UtxoCollection.insert c op out =
          ({ utxos := ((op, out).1, (op, out).2) :: c.utxos,
             muhash := c.muhash.add (op, out).1.1 }, none) from hc1]
      rw [hloop, ih]
      constructor
      · intro h l1 e l2 hsplit
        match l1, hsplit with
        | [], hsplit =>
          have he : e = a := by
            exact (by simpa using congrArg (fun l => l.headD a) hsplit : a = e).symm
          subst he
          simpa using hl
        | a' :: t, hsplit =>
          simp only [List.cons_append, List.cons.injEq] at hsplit
          obtain ⟨ha', hrest⟩ := hsplit
          subst ha'
          have := h t e l2 hrest
          simpa [List.append_assoc] using this
      · intro h l1 e l2 hsplit
        have := h (a :: l1) e l2 (by rw [hsplit]; rfl)
        simpa [List.append_assoc] using this

theorem apply_diff_add_loop_none_state : ∀ (adds : List ((Nat × Nat) × TxOutput))
    (c : UtxoCollection), (apply_diff_add_loop c adds).2 = none →
    (apply_diff_add_loop c adds).1.utxos = adds.reverse ++ c.utxos ∧
    (apply_diff_add_loop c adds).1.muhash =
      applyMuHashOps c.muhash (adds.map (fun x => (true, x.1.1))) := by
  intro adds
  induction adds with
  | nil =>
    intro c _
    constructor
    · rfl
    · rfl
  | cons a rest ih =>
    intro c hnone
    cases hl : lookupA c.utxos a.1 with
    | some v =>
      have hloop : apply_diff_add_loop c (a :: rest) = (c, some (.AlreadySpent a.1)) := by
        obtain ⟨op, out⟩ := a
        simp only [apply_diff_add_loop, UtxoCollection.insert]
        rw [hl]
        rfl
      rw [hloop] at hnone
      cases hnone
    | none =>
      have hloop : apply_diff_add_loop c (a :: rest) =
          apply_diff_add_loop { utxos := (a.1, a.2) :: c.utxos, muhash := c.muhash.add a.1.1 } rest := by
        obtain ⟨op, out⟩ := a
        simp only [apply_diff_add_loop, UtxoCollection.insert]
        rw [hl]
        rfl
      rw [hloop] at hnone ⊢
      obtain ⟨h1, h2⟩ := ih _ hnone
      constructor
      · rw [h1]
        simp [List.append_assoc]
      · rw [h2]
        rw [show ((a :: rest).map (fun x => (true, x.1.1))) =
          (true, a.1.1) :: rest.map (fun x => (true, x.1.1)) from rfl]
        rw [applyMuHashOps_cons]
        rfl

theorem apply_diff_add_loop_error : ∀ (adds : List ((Nat × Nat) × TxOutput))
    (c : UtxoCollection) (e : UtxoError), (apply_diff_add_loop c adds).2 = some e →
    ∃ l1 ep l2, adds = l1 ++ ep :: l2 ∧ e = UtxoError.AlreadySpent ep.1 ∧
      (lookupA (l1.reverse ++ c.utxos) ep.1).isSome ∧
      (apply_diff_add_loop c adds).1.utxos = l1.reverse ++ c.utxos ∧
      (apply_diff_add_loop c adds).1.muhash =
        applyMuHashOps c.muhash (l1.map (fun x => (true, x.1.1))) := by
  intro adds
  induction adds with
  | nil =>
    intro c e h
    cases h
  | cons a rest ih =>
    intro c e herr
    cases hl : lookupA c.utxos a.1 with
    | some v =>
      have hloop : apply_diff_add_loop c (a :: rest) = (c, some (.AlreadySpent a.1)) := by
        obtain ⟨op, out⟩ := a
        simp only [apply_diff_add_loop, UtxoCollection.insert]
        rw [hl]
        rfl
      rw [hloop] at herr ⊢
      refine ⟨[], a, rest, rfl, ?_, ?_, rfl, rfl⟩
      · cases herr
        rfl
      · simp [hl]
    | none =>
      have hloop : apply_diff_add_loop c (a :: rest) =
          apply_diff_add_loop { utxos := (a.1, a.2) :: c.utxos, muhash := c.muhash.add a.1.1 } rest := by
        obtain ⟨op, out⟩ := a
        simp only [apply_diff_add_loop, UtxoCollection.insert]
        rw [hl]
        rfl
      rw [hloop] at herr ⊢
      obtain ⟨l1, ep, l2, hsplit, he, hsome, hst, hmu⟩ := ih _ e herr
      refine ⟨a :: l1, ep, l2, by rw [hsplit]; rfl, he, ?_, ?_, ?_⟩
      · simpa [List.append_assoc] using hsome
      · rw [hst]
        simp [List.append_assoc]
      · rw [hmu]
        rw [show ((a :: l1).map (fun x => (true, x.1.1))) =
          (true, a.1.1) :: l1.map (fun x => (true, x.1.1)) from rfl]
        rw [applyMuHashOps_cons]
        rfl

theorem apply_diff_remove_loop_spec : ∀ (removes : List (Nat × Nat)) (c : UtxoCollection),
    (apply_diff_remove_loop c removes).2 = none ∧
    (apply_diff_remove_loop c removes).1.utxos =
      removes.foldl (fun m op => eraseKey m op) c.utxos := by
  intro removes
  induction removes with
  | nil =>
    intro c
    exact ⟨rfl, rfl⟩
  | cons op rest ih =>
    intro c
    cases hl : lookupA c.utxos op with
    | some v =>
      have hloop : apply_diff_remove_loop c (op :: rest) =
          apply_diff_remove_loop
            { utxos := eraseKey c.utxos op, muhash := c.muhash.remove op.1 } rest := by
        simp only [apply_diff_remove_loop, UtxoCollection.remove]
        rw [hl]
      rw [hloop]
      exact ih _
    | none =>
      have hloop : apply_diff_remove_loop c (op :: rest) =
          apply_diff_remove_loop { utxos := eraseKey c.utxos op, muhash := c.muhash } rest := by
        simp only [apply_diff_remove_loop, UtxoCollection.remove]
        rw [hl]
      rw [hloop]
      exact ih _

/-- C7 (amended): `apply_diff` applies all `added` entries and then all
`removed` entries in that order.  It succeeds exactly when every added
outpoint is absent from the map as extended by the entries added before it;
a `removed` outpoint that is absent is skipped silently rather than failing.
On success the map is the original plus the added entries minus the removed
keys.  On failure (`AlreadySpent` at the first conflicting added entry) the
entries added before the conflict remain in the map and in the MuHash
commitment, and the removals are not performed — the diff is not atomic. -/
theorem apply_diff_spec (c : UtxoCollection) (diff : UtxoDiff) :
    ((c.apply_diff diff).2 = none ↔
      ∀ l1 e l2, diff.added = l1 ++ e :: l2 → lookupA (l1.reverse ++ c.utxos) e.1 = none) ∧
    ((c.apply_diff diff).2 = none →
      (c.apply_diff diff).1.utxos =
        diff.removed.foldl (fun m op => eraseKey m op) (diff.added.reverse ++ c.utxos)) ∧
    (∀ e, (c.apply_diff diff).2 = some e →
      ∃ l1 ep l2, diff.added = l1 ++ ep :: l2 ∧ e = UtxoError.AlreadySpent ep.1 ∧
        (lookupA (l1.reverse ++ c.utxos) ep.1).isSome ∧
        (c.apply_diff diff).1.utxos = l1.reverse ++ c.utxos ∧
        (c.apply_diff diff).1.muhash =
          applyMuHashOps c.muhash (l1.map (fun x => (true, x.1.1)))) := by
  cases hadd : apply_diff_add_loop c diff.added with
  | mk c1 err =>
    cases err with
    | none =>
      have hiff := apply_diff_add_loop_none_iff diff.added c
      have hstate := apply_diff_add_loop_none_state diff.added c (by rw [hadd])
      rw [hadd] at hiff hstate
      have happ : c.apply_diff diff = apply_diff_remove_loop c1 diff.removed := by
        simp only [UtxoCollection.apply_diff]
        rw [hadd]
      have hrem := apply_diff_remove_loop_spec diff.removed c1
      refine ⟨?_, ?_, ?_⟩
      · rw [happ, hrem.1]
        simpa using hiff
      · intro _
        rw [happ, hrem.2, hstate.1]
      · intro e herr
        rw [happ, hrem.1] at herr
        cases herr
    | some e0 =>
      have happ : c.apply_diff diff = (c1, some e0) := by
        simp only [UtxoCollection.apply_diff]
        rw [hadd]
      have herr := apply_diff_add_loop_error diff.added c e0 (by rw [hadd])
      rw [hadd] at herr
      obtain ⟨l1, ep, l2, hsplit, he, hsome, hst, hmu⟩ := herr
      refine ⟨?_, ?_, ?_⟩
      · rw [happ]
        constructor
        · intro h; cases h
        · intro h
          have := h l1 ep l2 hsplit
          rw [this] at hsome
          cases hsome
      · intro h
        rw [happ] at h
        cases h
      · intro e herr2
        rw [happ] at herr2 ⊢
        have he0 : e = e0 := by
          cases herr2
          rfl
        subst he0
        exact ⟨l1, ep, l2, hsplit, he, hsome, hst, hmu⟩

theorem apply_diff_spec_witness :
    (collection1.apply_diff diffMissing).1.utxos =
      diffMissing.removed.foldl (fun m op => eraseKey m op)
        (diffMissing.added.reverse ++ collection1.utxos) :=
  (apply_diff_spec collection1 diffMissing).2.1 (by decide)

/-- Counterexample to C7 as stated: applying a diff whose `removed` list
contains an absent outpoint succeeds (and adds `outpoint2`) instead of
failing and rolling back, contradicting both "succeeds only if every removed
outpoint is present" and the claimed atomicity. -/
theorem apply_diff_counterexample :
    collection1.get outpointMissing = none ∧
    (collection1.apply_diff diffMissing).2 = none ∧
    (collection1.apply_diff diffMissing).1.get outpoint2 = some output50 := by
  decide

/-! ## Claim C3: blue score arithmetic -/

theorem calculate_blue_set_nil (g : List (Nat × BlockRelations)) (k : Nat) :
    calculate_blue_set g k [] = ([], []) := by
  show calculate_blue_set_aux g k (parentFuel g []) [] [] [] [] = ([], [])
  have hf : parentFuel g [] = edgeBudget g (fun r => r.parents) [] + 1 := by
    simp [parentFuel]
  rw [hf]
  rfl

/-- C3 (amended): the blue score returned by `add_block` equals the number of
elements of `merge_set_blues` — not the selected parent's blue score plus
that count plus one; a genesis block (no parents at any level) still gets
blue score 0. -/
theorem add_block_blue_score (s : GhostDag) (block : Block) :
    (add_block s block).2.blue_score = (add_block s block).2.merge_set_blues.length ∧
    (block.header.parents_by_level.flatten = [] → (add_block s block).2.blue_score = 0) := by
  constructor
  · rfl
  · intro h
    show (calculate_blue_set s.block_relations s.k block.header.parents_by_level.flatten).1.length = 0
    rw [h, calculate_blue_set_nil]
    rfl

theorem add_block_blue_score_witness :
    (add_block dag0 gBlock).2.blue_score = 0 :=
  (add_block_blue_score dag0 gBlock).2 (by decide)

/-- Counterexample to C3 as stated: for the chain `gBlock <- aBlock`, the
block `aBlock` gets blue score 1 = |merge_set_blues|, while the claim's
formula (selected parent's blue score 0, plus 1 blue, plus 1) demands 2. -/
theorem add_block_blue_score_counterexample :
    (add_block dagG aBlock).2.selected_parent = gBlock.hash ∧
    blue_score_of dagG gBlock.hash = 0 ∧
    (add_block dagG aBlock).2.merge_set_blues.length = 1 ∧
    (add_block dagG aBlock).2.blue_score = 1 ∧
    (add_block dagG aBlock).2.blue_score ≠
      blue_score_of dagG ((add_block dagG aBlock).2.selected_parent) +
        (add_block dagG aBlock).2.merge_set_blues.length + 1 := by
  decide

/-! ## Claim C1: selected parent -/

theorem select_parent_last_max (s : GhostDag) : ∀ (l : List Nat) (p : Nat),
    ∃ l1 l2,
      p :: l = l1 ++ select_parent s (p :: l) :: l2 ∧
      (∀ q ∈ l2, blue_score_of s q < blue_score_of s (select_parent s (p :: l))) ∧
      (∀ q ∈ p :: l, blue_score_of s q ≤ blue_score_of s (select_parent s (p :: l))) := by
  intro l
  induction l with
  | nil =>
    intro p
    refine ⟨[], [], rfl, ?_, ?_⟩
    · intro q hq
      cases hq
    · intro q hq
      rcases List.mem_cons.mp hq with h | h
      · rw [h]
        exact le_refl (blue_score_of s p)
      · cases h
  | cons x t ih =>
    intro p
    by_cases hpx : blue_score_of s p ≤ blue_score_of s x
    · obtain ⟨l1, l2, hdec, hstrict, hle⟩ := ih x
      have hsel2 : select_parent s (p :: x :: t) = select_parent s (x :: t) := by
        show List.foldl _ (if blue_score_of s p ≤ blue_score_of s x then x else p) t =
          select_parent s (x :: t)
        rw [if_pos hpx]
        rfl
      refine ⟨p :: l1, l2, ?_, ?_, ?_⟩
      · rw [hsel2]
        show p :: x :: t = p :: (l1 ++ select_parent s (x :: t) :: l2)
        rw [← hdec]
      · rw [hsel2]
        exact hstrict
      · rw [hsel2]
        intro q hq
        rcases List.mem_cons.mp hq with h | h
        · rw [h]
          exact le_trans hpx (hle x (List.mem_cons_self x t))
        · exact hle q h
    · obtain ⟨l1, l2, hdec, hstrict, hle⟩ := ih p
      have hsel2 : select_parent s (p :: x :: t) = select_parent s (p :: t) := by
        show List.foldl _ (if blue_score_of s p ≤ blue_score_of s x then x else p) t =
          select_parent s (p :: t)
        rw [if_neg hpx]
        rfl
      match l1, hdec with
      | [], hdec =>
        have hr : select_parent s (p :: t) = p := by
          have := congrArg (fun z => z.headD 0) hdec
          simpa using this.symm
        have ht : t = l2 := by
          have := congrArg List.tail hdec
          simpa using this
        refine ⟨[], x :: t, ?_, ?_, ?_⟩
        · rw [hsel2, hr]
          rfl
        · intro q hq
          rw [hsel2, hr]
          rcases List.mem_cons.mp hq with h | h
          · rw [h]
            omega
          · have hq2 := hstrict q (ht ▸ h)
            rw [hr] at hq2
            exact hq2
        · intro q hq
          rw [hsel2, hr]
          rcases List.mem_cons.mp hq with h | h
          · rw [h]
          · rcases List.mem_cons.mp h with h2 | h2
            · rw [h2]
              omega
            · have hq2 := hle q (List.mem_cons_of_mem p h2)
              rw [hr] at hq2
              exact hq2
      | h0 :: t1, hdec =>
        simp only [List.cons_append, List.cons.injEq] at hdec
        obtain ⟨hh, hteq⟩ := hdec
        refine ⟨p :: x :: t1, l2, ?_, ?_, ?_⟩
        · rw [hsel2]
          show p :: x :: t = p :: x :: (t1 ++ select_parent s (p :: t) :: l2)
          rw [← hteq]
        · rw [hsel2]
          exact hstrict
        · rw [hsel2]
          intro q hq
          rcases List.mem_cons.mp hq with h | h
          · rw [h]
            exact hle p (List.mem_cons_self p t)
          · rcases List.mem_cons.mp h with h2 | h2
            · rw [h2]
              have hxp : blue_score_of s x < blue_score_of s p := by omega
              exact le_trans (le_of_lt hxp) (hle p (List.mem_cons_self p t))
            · exact hle q (List.mem_cons_of_mem p h2)

/-- C1 (amended): for a block with a non-empty (flattened) parent list, the
selected parent returned by `add_block` is an element of the concatenation of
**all** parent levels (not just level 0) achieving the maximum stored blue
score (0 for hashes unknown to the engine), and it is the **last** such
element of the list — every element after it scores strictly lower.  There is
no blue-work or smaller-hash tie-breaking.  For a block with no parents the
selected parent is the all-zero hash. -/
theorem add_block_selected_parent (s : GhostDag) (block : Block) :
    (block.header.parents_by_level.flatten = [] →
      (add_block s block).2.selected_parent = 0) ∧
    (∀ p0 l, block.header.parents_by_level.flatten = p0 :: l →
      ∃ l1 l2,
        p0 :: l = l1 ++ (add_block s block).2.selected_parent :: l2 ∧
        (∀ q ∈ l2,
          blue_score_of s q < blue_score_of s ((add_block s block).2.selected_parent)) ∧
        (∀ q ∈ p0 :: l,
          blue_score_of s q ≤ blue_score_of s ((add_block s block).2.selected_parent))) := by
  have hsel : (add_block s block).2.selected_parent =
      select_parent s block.header.parents_by_level.flatten := rfl
  constructor
  · intro h
    rw [hsel, h]
    rfl
  · intro p0 l h
    rw [hsel, h]
    exact select_parent_last_max s l p0

theorem add_block_selected_parent_witness :
    ∃ l1 l2,
      (1 : Nat) :: [2] = l1 ++ (add_block dag0 xBlock).2.selected_parent :: l2 ∧
      (∀ q ∈ l2,
        blue_score_of dag0 q < blue_score_of dag0 ((add_block dag0 xBlock).2.selected_parent)) ∧
      (∀ q ∈ (1 : Nat) :: [2],
        blue_score_of dag0 q ≤ blue_score_of dag0 ((add_block dag0 xBlock).2.selected_parent)) :=
  (add_block_selected_parent dag0 xBlock).2 1 [2] (by decide)

/-- Counterexample to C1 as stated: `xBlock` has the two level-0 parents
`1 < 2`, both unknown to the empty engine and hence tied at blue score 0.
The claim's rule (tie on blue score and blue work, then smaller hash) picks
`1`, but `max_by_key` returns the latest maximum, so the code picks `2`. -/
theorem add_block_selected_parent_counterexample :
    (add_block dag0 xBlock).2.selected_parent = 2 ∧
    spec_select_parent dag0 (xBlock.header.parents_by_level.headD []) = some 1 ∧
    blue_score_of dag0 1 = blue_score_of dag0 2 ∧ (1 : Nat) < 2 := by
  decide

/-! ## BFS machinery: reachability lemmas -/

theorem reach_src_not_excl {succ : Nat → List Nat} {excl : List Nat} {a x : Nat}
    (h : ReachVia succ excl a x) : a ∉ excl := by
  induction h with
  | refl ha => exact ha
  | tail _ _ _ _ _ ih => exact ih

theorem reach_tgt_not_excl {succ : Nat → List Nat} {excl : List Nat} {a x : Nat}
    (h : ReachVia succ excl a x) : x ∉ excl := by
  cases h with
  | refl ha => exact ha
  | tail _ _ _ _ hc => exact hc

theorem reach_trans {succ : Nat → List Nat} {excl : List Nat} {a b c : Nat}
    (h1 : ReachVia succ excl a b) (h2 : ReachVia succ excl b c) :
    ReachVia succ excl a c := by
  induction h2 with
  | refl _ => exact h1
  | tail y z _ hy hz ih => exact .tail _ y z ih hy hz

theorem reach_in_closed {succ : Nat → List Nat} {excl : List Nat} (T : Nat → Prop)
    (hT : ∀ b, T b → ∀ c ∈ succ b, c ∉ excl → T c) {a x : Nat}
    (h : ReachVia succ excl a x) (ha : T a) : T x := by
  induction h with
  | refl _ => exact ha
  | tail y z _ hy hz ih => exact hT y ih z hy hz

/-! ## BFS machinery: fuel accounting -/

theorem edgeBudget_cons (e : Nat × BlockRelations) (g : List (Nat × BlockRelations))
    (proj : BlockRelations → List Nat) (V : List Nat) :
    edgeBudget (e :: g) proj V =
      (if e.1 ∈ V then 0 else (proj e.2).length) + edgeBudget g proj V := by
  by_cases h : e.1 ∈ V <;> simp [edgeBudget, h]

theorem edgeBudget_mono (g : List (Nat × BlockRelations)) (proj : BlockRelations → List Nat)
    (V V' : List Nat) (hsub : ∀ k, k ∈ V → k ∈ V') :
    edgeBudget g proj V' ≤ edgeBudget g proj V := by
  induction g with
  | nil => exact le_refl _
  | cons e rest ih =>
    rw [edgeBudget_cons, edgeBudget_cons]
    by_cases h : e.1 ∈ V
    · simp [h, hsub e.1 h]
      omega
    · by_cases h' : e.1 ∈ V' <;> simp [h, h'] <;> omega

theorem lookupA_cons_ne {α : Type} (k q : Nat) (r : α) (rest : List (Nat × α))
    (h : q ≠ k) : lookupA ((k, r) :: rest) q = lookupA rest q := by
  simp [lookupA, h]

theorem succOf_cons_eq (k : Nat) (r : BlockRelations) (rest : List (Nat × BlockRelations))
    (proj : BlockRelations → List Nat) : succOf ((k, r) :: rest) proj k = proj r := by
  simp [succOf, lookupA]

theorem succOf_cons_ne (k q : Nat) (r : BlockRelations) (rest : List (Nat × BlockRelations))
    (proj : BlockRelations → List Nat) (h : q ≠ k) :
    succOf ((k, r) :: rest) proj q = succOf rest proj q := by
  unfold succOf
  rw [lookupA_cons_ne k q r rest h]

theorem edgeBudget_visit (g : List (Nat × BlockRelations)) (proj : BlockRelations → List Nat)
    (V : List Nat) (q : Nat) (hq : q ∉ V) :
    edgeBudget g proj (V ++ [q]) + (succOf g proj q).length ≤ edgeBudget g proj V := by
  induction g with
  | nil =>
    show edgeBudget [] proj (V ++ [q]) + ([] : List Nat).length ≤ _
    simp [edgeBudget]
  | cons e rest ih =>
    obtain ⟨k, r⟩ := e
    rw [edgeBudget_cons, edgeBudget_cons]
    by_cases hkq : q = k
    · subst hkq
      rw [succOf_cons_eq q r rest proj]
      have hqV2 : ((q, r).1 : Nat) ∈ V ++ [q] := by simp
      have hmono := edgeBudget_mono rest proj V (V ++ [q])
        (fun z hz => by simp [hz])
      have e1 : (if (q, r).1 ∈ V ++ [q] then 0 else (proj (q, r).2).length) = 0 :=
        if_pos hqV2
      have e2 : (if (q, r).1 ∈ V then 0 else (proj (q, r).2).length) = (proj r).length :=
        if_neg hq
      rw [e1, e2]
      omega
    · rw [succOf_cons_ne k q r rest proj hkq]
      have hkmem : (((k, r).1 : Nat) ∈ V ++ [q]) ↔ (k, r).1 ∈ V := by
        simp [List.mem_append]
        intro h
        exact absurd h.symm hkq
      by_cases hkV : (k, r).1 ∈ V
      · rw [if_pos hkV, if_pos (hkmem.mpr hkV)]
        omega
      · rw [if_neg hkV, if_neg (fun h => hkV (hkmem.mp h))]
        omega

/-- Master BFS characterization: with sufficient fuel, a node ends up in the
visited list exactly when it is already visited or reachable (avoiding the
exclusion set) from some queued node, provided the visited set is closed up
to the queue and avoids the exclusions. -/
theorem bfsAux_mem_iff (g : List (Nat × BlockRelations)) (proj : BlockRelations → List Nat)
    (excl : List Nat) :
    ∀ fuel Q V,
      Q.length + edgeBudget g proj V + 1 ≤ fuel →
      (∀ v ∈ V, ∀ c ∈ succOf g proj v, c ∈ V ∨ c ∈ Q ∨ c ∈ excl) →
      (∀ v ∈ V, v ∉ excl) →
      ∀ x, x ∈ bfsAux (succOf g proj) excl fuel Q V ↔
        x ∈ V ∨ ∃ q ∈ Q, ReachVia (succOf g proj) excl q x := by
  intro fuel
  induction fuel with
  | zero =>
    intro Q V hfuel
    exact absurd hfuel (by omega)
  | succ n ih =>
    intro Q V hfuel hcl hex x
    cases Q with
    | nil =>
      have hstep : bfsAux (succOf g proj) excl (n + 1) [] V = V := rfl
      rw [hstep]
      simp
    | cons q rest =>
      by_cases hq : q ∈ V ∨ q ∈ excl
      · have hstep : bfsAux (succOf g proj) excl (n + 1) (q :: rest) V =
            bfsAux (succOf g proj) excl n rest V := by
          simp [bfsAux, hq]
        rw [hstep]
        have hfuel' : rest.length + edgeBudget g proj V + 1 ≤ n := by
          simp only [List.length_cons] at hfuel
          omega
        have hcl' : ∀ v ∈ V, ∀ c ∈ succOf g proj v, c ∈ V ∨ c ∈ rest ∨ c ∈ excl := by
          intro v hv c hc
          rcases hcl v hv c hc with h | h | h
          · exact Or.inl h
          · rcases List.mem_cons.mp h with h2 | h2
            · subst h2
              rcases hq with hqV | hqE
              · exact Or.inl hqV
              · exact Or.inr (Or.inr hqE)
            · exact Or.inr (Or.inl h2)
          · exact Or.inr (Or.inr h)
        rw [ih rest V hfuel' hcl' hex x]
        constructor
        · rintro (h | ⟨q', hq', hr⟩)
          · exact Or.inl h
          · exact Or.inr ⟨q', List.mem_cons_of_mem q hq', hr⟩
        · rintro (h | ⟨q', hq', hr⟩)
          · exact Or.inl h
          · rcases List.mem_cons.mp hq' with h2 | h2
            · subst h2
              rcases hq with hqV | hqE
              · have hclosed : ∀ b, (b ∈ V ∨ ∃ z ∈ rest,
                      ReachVia (succOf g proj) excl z b) →
                    ∀ c ∈ succOf g proj b, c ∉ excl →
                    (c ∈ V ∨ ∃ z ∈ rest, ReachVia (succOf g proj) excl z c) := by
                  rintro b (hb | ⟨z, hz, hzb⟩) c hc hcE
                  · rcases hcl b hb c hc with h | h | h
                    · exact Or.inl h
                    · rcases List.mem_cons.mp h with h3 | h3
                      · subst h3
                        exact Or.inl hqV
                      · exact Or.inr ⟨c, h3, .refl c hcE⟩
                    · exact absurd h hcE
                  · exact Or.inr ⟨z, hz, .tail z b c hzb hc hcE⟩
                exact reach_in_closed _ hclosed hr (Or.inl hqV)
              · exact absurd hqE (reach_src_not_excl hr)
            · exact Or.inr ⟨q', h2, hr⟩
      · obtain ⟨hqV, hqE⟩ := not_or.mp hq
        have hstep : bfsAux (succOf g proj) excl (n + 1) (q :: rest) V =
            bfsAux (succOf g proj) excl n (rest ++ succOf g proj q) (V ++ [q]) := by
          simp [bfsAux, hqV, hqE]
        rw [hstep]
        have hvisit := edgeBudget_visit g proj V q hqV
        have hfuel' : (rest ++ succOf g proj q).length +
            edgeBudget g proj (V ++ [q]) + 1 ≤ n := by
          rw [List.length_append]
          simp only [List.length_cons] at hfuel
          omega
        have hcl' : ∀ v ∈ V ++ [q], ∀ c ∈ succOf g proj v,
            c ∈ V ++ [q] ∨ c ∈ rest ++ succOf g proj q ∨ c ∈ excl := by
          intro v hv c hc
          rcases List.mem_append.mp hv with hvV | hvq
          · rcases hcl v hvV c hc with h | h | h
            · exact Or.inl (List.mem_append.mpr (Or.inl h))
            · rcases List.mem_cons.mp h with h2 | h2
              · subst h2
                exact Or.inl (by simp)
              · exact Or.inr (Or.inl (List.mem_append.mpr (Or.inl h2)))
            · exact Or.inr (Or.inr h)
          · have hvq' : v = q := by simpa using hvq
            subst hvq'
            exact Or.inr (Or.inl (List.mem_append.mpr (Or.inr hc)))
        have hex' : ∀ v ∈ V ++ [q], v ∉ excl := by
          intro v hv
          rcases List.mem_append.mp hv with h | h
          · exact hex v h
          · have hvq : v = q := by simpa using h
            subst hvq
            exact hqE
        rw [ih _ _ hfuel' hcl' hex' x]
        constructor
        · rintro (h | ⟨q', hq', hr⟩)
          · rcases List.mem_append.mp h with h2 | h2
            · exact Or.inl h2
            · have hxq : x = q := by simpa using h2
              subst hxq
              exact Or.inr ⟨x, List.mem_cons_self x rest, .refl x hqE⟩
          · rcases List.mem_append.mp hq' with h2 | h2
            · exact Or.inr ⟨q', List.mem_cons_of_mem q h2, hr⟩
            · have hq'E : q' ∉ excl := reach_src_not_excl hr
              have hqq' : ReachVia (succOf g proj) excl q q' :=
                .tail q q q' (.refl q hqE) h2 hq'E
              exact Or.inr ⟨q, List.mem_cons_self q rest, reach_trans hqq' hr⟩
        · rintro (h | ⟨q', hq', hr⟩)
          · exact Or.inl (List.mem_append.mpr (Or.inl h))
          · rcases List.mem_cons.mp hq' with h2 | h2
            · subst h2
              have hclosed : ∀ b, (b ∈ V ++ [q'] ∨ ∃ z ∈ rest ++ succOf g proj q',
                    ReachVia (succOf g proj) excl z b) →
                  ∀ c ∈ succOf g proj b, c ∉ excl →
                  (c ∈ V ++ [q'] ∨ ∃ z ∈ rest ++ succOf g proj q',
                    ReachVia (succOf g proj) excl z c) := by
                rintro b (hb | ⟨z, hz, hzb⟩) c hc hcE
                · rcases List.mem_append.mp hb with hbV | hbq
                  · rcases hcl b hbV c hc with h | h | h
                    · exact Or.inl (List.mem_append.mpr (Or.inl h))
                    · rcases List.mem_cons.mp h with h3 | h3
                      · subst h3
                        exact Or.inl (by simp)
                      · exact Or.inr ⟨c, List.mem_append.mpr (Or.inl h3), .refl c hcE⟩
                    · exact absurd h hcE
                  · have hbq' : b = q' := by simpa using hbq
                    subst hbq'
                    exact Or.inr ⟨c, List.mem_append.mpr (Or.inr hc), .refl c hcE⟩
                · exact Or.inr ⟨z, hz, .tail z b c hzb hc hcE⟩
              exact reach_in_closed _ hclosed hr (Or.inl (by simp))
            · exact Or.inr ⟨q', List.mem_append.mpr (Or.inl h2), hr⟩

theorem bfsAux_prefix (succ : Nat → List Nat) (excl : List Nat) :
    ∀ fuel Q V, ∃ new, bfsAux succ excl fuel Q V = V ++ new := by
  intro fuel
  induction fuel with
  | zero =>
    intro Q V
    exact ⟨[], by simp [bfsAux]⟩
  | succ n ih =>
    intro Q V
    cases Q with
    | nil => exact ⟨[], by simp [bfsAux]⟩
    | cons q rest =>
      by_cases hq : q ∈ V ∨ q ∈ excl
      · obtain ⟨new, hnew⟩ := ih rest V
        refine ⟨new, ?_⟩
        rw [show bfsAux succ excl (n + 1) (q :: rest) V = bfsAux succ excl n rest V from by
          simp [bfsAux, hq]]
        exact hnew
      · obtain ⟨new, hnew⟩ := ih (rest ++ succ q) (V ++ [q])
        refine ⟨q :: new, ?_⟩
        rw [show bfsAux succ excl (n + 1) (q :: rest) V =
            bfsAux succ excl n (rest ++ succ q) (V ++ [q]) from by simp [bfsAux, hq]]
        rw [hnew, List.append_assoc]
        rfl

theorem bfsAux_nodup (succ : Nat → List Nat) (excl : List Nat) :
    ∀ fuel Q V, V.Nodup → (bfsAux succ excl fuel Q V).Nodup := by
  intro fuel
  induction fuel with
  | zero =>
    intro Q V hV
    exact hV
  | succ n ih =>
    intro Q V hV
    cases Q with
    | nil => exact hV
    | cons q rest =>
      by_cases hq : q ∈ V ∨ q ∈ excl
      · rw [show bfsAux succ excl (n + 1) (q :: rest) V = bfsAux succ excl n rest V from by
          simp [bfsAux, hq]]
        exact ih rest V hV
      · obtain ⟨hqV, _⟩ := not_or.mp hq
        rw [show bfsAux succ excl (n + 1) (q :: rest) V =
            bfsAux succ excl n (rest ++ succ q) (V ++ [q]) from by simp [bfsAux, hq]]
        apply ih
        rw [List.nodup_append]
        exact ⟨hV, List.nodup_singleton q, by
          intro a haV ha1
          have : a = q := by simpa using ha1
          subst this
          exact hqV haV⟩

theorem childrenOf_eq_succOf (g : List (Nat × BlockRelations)) (h : Nat) :
    childrenOf g h = succOf g (fun r => r.children) h := rfl

theorem parentsOf_eq_succOf (g : List (Nat × BlockRelations)) (h : Nat) :
    parentsOf g h = succOf g (fun r => r.parents) h := rfl

theorem anticone_aux_eq (g : List (Nat × BlockRelations)) (excl : List Nat) (b : Nat) :
    ∀ fuel Q V size,
      ∃ new, bfsAux (succOf g (fun r => r.children)) excl fuel Q V = V ++ new ∧
        calculate_anticone_size_aux g excl b fuel Q V size =
          size + (new.filter (fun x => decide (x ≠ b))).length := by
  intro fuel
  induction fuel with
  | zero =>
    intro Q V size
    exact ⟨[], by simp [bfsAux], by simp [calculate_anticone_size_aux]⟩
  | succ n ih =>
    intro Q V size
    cases Q with
    | nil => exact ⟨[], by simp [bfsAux], by simp [calculate_anticone_size_aux]⟩
    | cons q rest =>
      by_cases hq : q ∈ V ∨ q ∈ excl
      · obtain ⟨new, h1, h2⟩ := ih rest V size
        refine ⟨new, ?_, ?_⟩
        · rw [show bfsAux (succOf g (fun r => r.children)) excl (n + 1) (q :: rest) V =
              bfsAux (succOf g (fun r => r.children)) excl n rest V from by
            simp [bfsAux, hq]]
          exact h1
        · rw [show calculate_anticone_size_aux g excl b (n + 1) (q :: rest) V size =
              calculate_anticone_size_aux g excl b n rest V size from by
            simp [calculate_anticone_size_aux, hq]]
          exact h2
      · obtain ⟨new, h1, h2⟩ :=
          ih (rest ++ succOf g (fun r => r.children) q) (V ++ [q])
            (if q ≠ b then size + 1 else size)
        refine ⟨q :: new, ?_, ?_⟩
        · rw [show bfsAux (succOf g (fun r => r.children)) excl (n + 1) (q :: rest) V =
              bfsAux (succOf g (fun r => r.children)) excl n
                (rest ++ succOf g (fun r => r.children) q) (V ++ [q]) from by
            simp [bfsAux, hq]]
          rw [h1, List.append_assoc]
          rfl
        · rw [show calculate_anticone_size_aux g excl b (n + 1) (q :: rest) V size =
              calculate_anticone_size_aux g excl b n (rest ++ childrenOf g q) (V ++ [q])
                (if q ≠ b then size + 1 else size) from by
            simp [calculate_anticone_size_aux, hq]]
          rw [childrenOf_eq_succOf, h2]
          by_cases hqb : q = b
          · subst hqb
            simp [List.filter]
          · rw [show (q :: new).filter (fun x => decide (x ≠ b)) =
                q :: new.filter (fun x => decide (x ≠ b)) from by
              simp [List.filter, hqb]]
            simp [hqb]
            omega

theorem blue_set_aux_eq (g : List (Nat × BlockRelations)) (k : Nat) :
    ∀ fuel Q V blues reds,
      ∃ new, bfsAux (succOf g (fun r => r.parents)) [] fuel Q V = V ++ new ∧
        calculate_blue_set_aux g k fuel Q V blues reds =
          (blues ++ new.filter (fun x => decide (calculate_anticone_size_optimized g x [] ≤ k)),
           reds ++ new.filter (fun x => !decide (calculate_anticone_size_optimized g x [] ≤ k))) := by
  intro fuel
  induction fuel with
  | zero =>
    intro Q V blues reds
    exact ⟨[], by simp [bfsAux], by simp [calculate_blue_set_aux]⟩
  | succ n ih =>
    intro Q V blues reds
    cases Q with
    | nil => exact ⟨[], by simp [bfsAux], by simp [calculate_blue_set_aux]⟩
    | cons q rest =>
      by_cases hq : q ∈ V
      · obtain ⟨new, h1, h2⟩ := ih rest V blues reds
        refine ⟨new, ?_, ?_⟩
        · rw [show bfsAux (succOf g (fun r => r.parents)) [] (n + 1) (q :: rest) V =
              bfsAux (succOf g (fun r => r.parents)) [] n rest V from by
            simp [bfsAux, hq]]
          exact h1
        · rw [show calculate_blue_set_aux g k (n + 1) (q :: rest) V blues reds =
              calculate_blue_set_aux g k n rest V blues reds from by
            simp [calculate_blue_set_aux, hq]]
          exact h2
      · by_cases hblue : calculate_anticone_size_optimized g q [] ≤ k
        · obtain ⟨new, h1, h2⟩ :=
            ih (rest ++ succOf g (fun r => r.parents) q) (V ++ [q]) (blues ++ [q]) reds
          refine ⟨q :: new, ?_, ?_⟩
          · rw [show bfsAux (succOf g (fun r => r.parents)) [] (n + 1) (q :: rest) V =
                bfsAux (succOf g (fun r => r.parents)) [] n
                  (rest ++ succOf g (fun r => r.parents) q) (V ++ [q]) from by
              simp [bfsAux, hq]]
            rw [h1, List.append_assoc]
            rfl
          · rw [show calculate_blue_set_aux g k (n + 1) (q :: rest) V blues reds =
                calculate_blue_set_aux g k n (rest ++ parentsOf g q) (V ++ [q])
                  (blues ++ [q]) reds from by
              simp [calculate_blue_set_aux, hq, hblue]]
            rw [parentsOf_eq_succOf, h2]
            rw [show (q :: new).filter
                  (fun x => decide (calculate_anticone_size_optimized g x [] ≤ k)) =
                q :: new.filter
                  (fun x => decide (calculate_anticone_size_optimized g x [] ≤ k)) from by
              simp [List.filter, hblue]]
            rw [show (q :: new).filter
                  (fun x => !decide (calculate_anticone_size_optimized g x [] ≤ k)) =
                new.filter
                  (fun x => !decide (calculate_anticone_size_optimized g x [] ≤ k)) from by
              simp [List.filter, hblue]]
            rw [List.append_assoc]
            rfl
        · obtain ⟨new, h1, h2⟩ :=
            ih (rest ++ succOf g (fun r => r.parents) q) (V ++ [q]) blues (reds ++ [q])
          refine ⟨q :: new, ?_, ?_⟩
          · rw [show bfsAux (succOf g (fun r => r.parents)) [] (n + 1) (q :: rest) V =
                bfsAux (succOf g (fun r => r.parents)) [] n
                  (rest ++ succOf g (fun r => r.parents) q) (V ++ [q]) from by
              simp [bfsAux, hq]]
            rw [h1, List.append_assoc]
            rfl
          · rw [show calculate_blue_set_aux g k (n + 1) (q :: rest) V blues reds =
                calculate_blue_set_aux g k n (rest ++ parentsOf g q) (V ++ [q])
                  blues (reds ++ [q]) from by
              simp [calculate_blue_set_aux, hq, hblue]]
            rw [parentsOf_eq_succOf, h2]
            rw [show (q :: new).filter
                  (fun x => decide (calculate_anticone_size_optimized g x [] ≤ k)) =
                new.filter
                  (fun x => decide (calculate_anticone_size_optimized g x [] ≤ k)) from by
              simp [List.filter, hblue]]
            rw [show (q :: new).filter
                  (fun x => !decide (calculate_anticone_size_optimized g x [] ≤ k)) =
                q :: new.filter
                  (fun x => !decide (calculate_anticone_size_optimized g x [] ≤ k)) from by
              simp [List.filter, hblue]]
            rw [List.append_assoc]
            rfl

/-- The classification BFS of `calculate_blue_set`: there is a single visit
list `new` (no duplicates) whose members are exactly the nodes reachable from
the parents through parent links, and the blue/red outputs are its
anticone-test filterings. -/
theorem calculate_blue_set_spec (g : List (Nat × BlockRelations)) (k : Nat)
    (parents : List Nat) :
    ∃ new : List Nat,
      calculate_blue_set g k parents =
        (new.filter (fun x => decide (calculate_anticone_size_optimized g x [] ≤ k)),
         new.filter (fun x => !decide (calculate_anticone_size_optimized g x [] ≤ k))) ∧
      (∀ x, x ∈ new ↔ ∃ p ∈ parents,
        ReachVia (succOf g (fun r => r.parents)) [] p x) ∧
      new.Nodup := by
  obtain ⟨new, h1, h2⟩ := blue_set_aux_eq g k (parentFuel g parents) parents [] [] []
  refine ⟨new, ?_, ?_, ?_⟩
  · rw [show calculate_blue_set g k parents =
        calculate_blue_set_aux g k (parentFuel g parents) parents [] [] [] from rfl, h2]
    simp
  · intro x
    have hmem := bfsAux_mem_iff g (fun r => r.parents) [] (parentFuel g parents) parents []
      (by simp [parentFuel]) (by intro v hv; cases hv) (by intro v hv; cases hv) x
    rw [h1] at hmem
    simpa using hmem
  · have := bfsAux_nodup (succOf g (fun r => r.parents)) [] (parentFuel g parents)
      parents [] List.nodup_nil
    rw [h1] at this
    simpa using this

/-- C2 (amended): the union of `merge_set_blues` and `merge_set_reds`
returned by `add_block` is the set of **all** ancestors of the block — every
node reachable from its (flattened) parents, inclusive, through stored parent
links — not just the ancestors outside the selected parent's past; the two
sets are disjoint. -/
theorem add_block_merge_sets (s : GhostDag) (block : Block) :
    (∀ x, (x ∈ (add_block s block).2.merge_set_blues ∨
        x ∈ (add_block s block).2.merge_set_reds) ↔
      ∃ p ∈ block.header.parents_by_level.flatten,
        ReachVia (succOf s.block_relations (fun r => r.parents)) [] p x) ∧
    (∀ x, x ∈ (add_block s block).2.merge_set_blues →
      x ∉ (add_block s block).2.merge_set_reds) := by
  obtain ⟨new, heq, hmem, hnodup⟩ :=
    calculate_blue_set_spec s.block_relations s.k block.header.parents_by_level.flatten
  have hblues : (add_block s block).2.merge_set_blues =
      new.filter (fun x =>
        decide (calculate_anticone_size_optimized s.block_relations x [] ≤ s.k)) := by
    rw [show (add_block s block).2.merge_set_blues =
      (calculate_blue_set s.block_relations s.k block.header.parents_by_level.flatten).1
      from rfl, heq]
  have hreds : (add_block s block).2.merge_set_reds =
      new.filter (fun x =>
        !decide (calculate_anticone_size_optimized s.block_relations x [] ≤ s.k)) := by
    rw [show (add_block s block).2.merge_set_reds =
      (calculate_blue_set s.block_relations s.k block.header.parents_by_level.flatten).2
      from rfl, heq]
  constructor
  · intro x
    rw [← hmem x, hblues, hreds]
    constructor
    · rintro (h | h)
      · exact (List.mem_filter.mp h).1
      · exact (List.mem_filter.mp h).1
    · intro hx
      by_cases hP : calculate_anticone_size_optimized s.block_relations x [] ≤ s.k
      · exact Or.inl (List.mem_filter.mpr ⟨hx, by simp [hP]⟩)
      · exact Or.inr (List.mem_filter.mpr ⟨hx, by simp [hP]⟩)
  · intro x hxb hxr
    rw [hblues] at hxb
    rw [hreds] at hxr
    have h1 := (List.mem_filter.mp hxb).2
    have h2 := (List.mem_filter.mp hxr).2
    simp at h1 h2
    omega

theorem add_block_merge_sets_witness :
    (gBlock.hash ∈ (add_block dagA bBlock).2.merge_set_blues ∨
      gBlock.hash ∈ (add_block dagA bBlock).2.merge_set_reds) ↔
      ∃ p ∈ bBlock.header.parents_by_level.flatten,
        ReachVia (succOf dagA.block_relations (fun r => r.parents)) [] p gBlock.hash :=
  (add_block_merge_sets dagA bBlock).1 gBlock.hash

/-- Counterexample to C2 as stated: for the chain `gBlock <- aBlock <-
bBlock`, the union of the merge sets of `bBlock` contains `gBlock`, which
lies in the past cone of `bBlock`'s selected parent `aBlock` and therefore
is not in the merge set the claim describes. -/
theorem add_block_merge_sets_counterexample :
    (add_block dagA bBlock).2.selected_parent = aBlock.hash ∧
    gBlock.hash ∈ (add_block dagA bBlock).2.merge_set_blues ++
      (add_block dagA bBlock).2.merge_set_reds ∧
    gBlock.hash ∈ spec_past_cone dagA.block_relations 8 aBlock.hash := by
  decide

/-! ## Claim C4: blues' anticone sizes are bounded by k -/

theorem lookupA_foldl_insert (f : Nat → Nat) :
    ∀ (l : List Nat) (init : List (Nat × Nat)) (b : Nat),
      lookupA (l.foldl (fun m x => (x, f x) :: m) init) b =
        if b ∈ l then some (f b) else lookupA init b := by
  intro l
  induction l with
  | nil =>
    intro init b
    simp
  | cons x t ih =>
    intro init b
    rw [show (x :: t).foldl (fun m x => (x, f x) :: m) init =
      t.foldl (fun m x => (x, f x) :: m) ((x, f x) :: init) from rfl, ih]
    by_cases hbt : b ∈ t
    · rw [if_pos hbt, if_pos (List.mem_cons_of_mem x hbt)]
    · by_cases hbx : b = x
      · subst hbx
        rw [if_neg hbt, if_pos (List.mem_cons_self b t)]
        simp [lookupA]
      · rw [if_neg hbt, if_neg (by
          intro h
          rcases List.mem_cons.mp h with h2 | h2
          · exact hbx h2
          · exact hbt h2)]
        simp [lookupA, hbx]

theorem reach_mono (succ1 succ2 : Nat → List Nat) (P : List Nat)
    (hs : ∀ h, h ∉ P → succ2 h ⊆ succ1 h) {a x : Nat}
    (h : ReachVia succ2 P a x) : ReachVia succ1 [] a x := by
  induction h with
  | refl _ => exact .refl _ (List.not_mem_nil _)
  | tail y z hab hz _ ih =>
    exact .tail _ y z ih (hs y (reach_tgt_not_excl hab) hz) (List.not_mem_nil z)

/-- The future-walking BFS of `calculate_anticone_size_optimized` counts
exactly the nodes other than `b` reachable from `b` through children links
avoiding the exclusion set. -/
theorem anticone_size_spec (g : List (Nat × BlockRelations)) (excl : List Nat) (b : Nat) :
    ∃ visited : List Nat,
      calculate_anticone_size_optimized g b excl =
        (visited.filter (fun x => decide (x ≠ b))).length ∧
      (∀ x, x ∈ visited ↔ ReachVia (succOf g (fun r => r.children)) excl b x) ∧
      visited.Nodup := by
  obtain ⟨new, h1, h2⟩ := anticone_aux_eq g excl b (childFuel g [b]) [b] [] 0
  refine ⟨new, ?_, ?_, ?_⟩
  · rw [show calculate_anticone_size_optimized g b excl =
      calculate_anticone_size_aux g excl b (childFuel g [b]) [b] [] 0 from rfl, h2]
    simp
  · intro x
    have hmem := bfsAux_mem_iff g (fun r => r.children) excl (childFuel g [b]) [b] []
      (by simp [childFuel]) (by intro v hv; cases hv) (by intro v hv; cases hv) x
    rw [h1] at hmem
    simpa using hmem
  · have := bfsAux_nodup (succOf g (fun r => r.children)) excl (childFuel g [b]) [b] []
      List.nodup_nil
    rw [h1] at this
    simpa using this

theorem anticone_size_mono (g1 g2 : List (Nat × BlockRelations)) (P : List Nat) (b : Nat)
    (hs : ∀ h, h ∉ P → succOf g2 (fun r => r.children) h ⊆ succOf g1 (fun r => r.children) h) :
    calculate_anticone_size_optimized g2 b P ≤
      calculate_anticone_size_optimized g1 b [] := by
  obtain ⟨v2, e2, m2, n2⟩ := anticone_size_spec g2 P b
  obtain ⟨v1, e1, m1, n1⟩ := anticone_size_spec g1 [] b
  rw [e1, e2]
  apply List.Subperm.length_le
  apply List.subperm_of_subset (List.Nodup.filter _ n2)
  intro x hx
  have hx2 := List.mem_filter.mp hx
  exact List.mem_filter.mpr
    ⟨(m1 x).mpr (reach_mono _ _ P hs ((m2 x).mp hx2.1)), hx2.2⟩

theorem push_child_lookup_ne : ∀ (g : List (Nat × BlockRelations)) (p c h : Nat),
    p ≠ h → lookupA (push_child g p c) h = lookupA g h := by
  intro g
  induction g with
  | nil =>
    intro p c h _
    rfl
  | cons e rest ih =>
    intro p c h hph
    obtain ⟨k, r⟩ := e
    by_cases hpk : p = k
    · rw [show push_child ((k, r) :: rest) p c =
        (k, { r with children := r.children ++ [c] }) :: rest from by
          simp [push_child, hpk]]
      have hhk : h ≠ k := by rw [← hpk]; exact fun hh => hph hh.symm
      rw [lookupA_cons_ne k h _ rest hhk, lookupA_cons_ne k h r rest hhk]
    · rw [show push_child ((k, r) :: rest) p c = (k, r) :: push_child rest p c from by
        simp [push_child, hpk]]
      by_cases hhk : h = k
      · subst hhk
        simp [lookupA]
      · rw [lookupA_cons_ne k h r _ hhk, lookupA_cons_ne k h r rest hhk]
        exact ih p c h hph

theorem foldl_push_lookup : ∀ (ps : List Nat) (g0 : List (Nat × BlockRelations)) (c h : Nat),
    h ∉ ps → lookupA (ps.foldl (fun g p => push_child g p c) g0) h = lookupA g0 h := by
  intro ps
  induction ps with
  | nil =>
    intro g0 c h _
    rfl
  | cons p rest ih =>
    intro g0 c h hp
    rw [show (p :: rest).foldl (fun g p => push_child g p c) g0 =
      rest.foldl (fun g p => push_child g p c) (push_child g0 p c) from rfl]
    rw [ih _ c h (fun hh => hp (List.mem_cons_of_mem p hh))]
    exact push_child_lookup_ne g0 p c h (fun hph => hp (hph ▸ List.mem_cons_self p rest))

theorem succ_sub_general (g1 : List (Nat × BlockRelations)) (ps : List Nat) (bh : Nat)
    (rel : BlockRelations) (hrel : rel.children = []) :
    ∀ h, h ∉ ps →
      succOf (ps.foldl (fun g p => push_child g p bh) ((bh, rel) :: g1))
        (fun r => r.children) h ⊆ succOf g1 (fun r => r.children) h := by
  intro h hp
  rw [show succOf (ps.foldl (fun g p => push_child g p bh) ((bh, rel) :: g1))
      (fun r => r.children) h = succOf ((bh, rel) :: g1) (fun r => r.children) h from by
    unfold succOf
    rw [foldl_push_lookup ps _ bh h hp]]
  by_cases hB : h = bh
  · subst hB
    rw [succOf_cons_eq, hrel]
    intro x hx
    cases hx
  · rw [succOf_cons_ne bh h rel g1 _ hB]
    exact fun x hx => hx

/-- C4: for every block added via `add_block` with GHOSTDAG parameter `k`,
every member `b` of the returned `merge_set_blues` has an entry in the
returned `blues_anticone_sizes`, and that entry is at most `k`. -/
theorem add_block_blues_anticone_sizes (s : GhostDag) (block : Block) :
    ∀ b ∈ (add_block s block).2.merge_set_blues,
      ∃ size, lookupA (add_block s block).2.blues_anticone_sizes b = some size ∧
        size ≤ s.k := by
  intro b hb
  obtain ⟨new, heq, hmem, hnodup⟩ :=
    calculate_blue_set_spec s.block_relations s.k block.header.parents_by_level.flatten
  have hb' : b ∈ new.filter (fun x =>
      decide (calculate_anticone_size_optimized s.block_relations x [] ≤ s.k)) := by
    have : (add_block s block).2.merge_set_blues =
        new.filter (fun x =>
          decide (calculate_anticone_size_optimized s.block_relations x [] ≤ s.k)) := by
      rw [show (add_block s block).2.merge_set_blues =
        (calculate_blue_set s.block_relations s.k block.header.parents_by_level.flatten).1
        from rfl, heq]
    exact this ▸ hb
  have hP : calculate_anticone_size_optimized s.block_relations b [] ≤ s.k := by
    have := (List.mem_filter.mp hb').2
    simpa using this
  refine ⟨calculate_anticone_size_optimized (add_block s block).1.block_relations b
    block.header.parents_by_level.flatten, ?_, ?_⟩
  · rw [show (add_block s block).2.blues_anticone_sizes =
      calculate_blues_anticone_sizes (add_block s block).1.block_relations
        (calculate_blue_set s.block_relations s.k block.header.parents_by_level.flatten).1
        block.header.parents_by_level.flatten from rfl]
    unfold calculate_blues_anticone_sizes
    rw [lookupA_foldl_insert
      (fun x => calculate_anticone_size_optimized (add_block s block).1.block_relations x
        block.header.parents_by_level.flatten) _ [] b]
    rw [if_pos (show b ∈ (calculate_blue_set s.block_relations s.k
      block.header.parents_by_level.flatten).1 from hb)]
  · have hmono : calculate_anticone_size_optimized (add_block s block).1.block_relations b
        block.header.parents_by_level.flatten ≤
        calculate_anticone_size_optimized s.block_relations b [] := by
      apply anticone_size_mono
      intro h hp
      exact succ_sub_general s.block_relations block.header.parents_by_level.flatten
        block.hash _ rfl h hp
    exact le_trans hmono hP

theorem add_block_blues_anticone_sizes_witness :
    ∃ size, lookupA (add_block dagG aBlock).2.blues_anticone_sizes gBlock.hash =
      some size ∧ size ≤ dagG.k :=
  add_block_blues_anticone_sizes dagG aBlock gBlock.hash (by decide)

/-! ## Claim C6: reorg paths and common ancestors -/

theorem find_common_walk_spec (s : GhostDag) :
    ∀ fuel b2 ln, selected_chain s fuel b2 = some ln →
      ∀ anc1 : List Nat, find_common_walk s anc1 fuel b2 =
        some (match ln.find? (fun x => decide (x ∈ anc1)) with
          | some c => Except.ok c
          | none => Except.error ConsensusError.NoCommonAncestor) := by
  intro fuel
  induction fuel with
  | zero =>
    intro b2 ln h
    cases h
  | succ n ih =>
    intro b2 ln h anc1
    cases hrel : s.get_relations b2 with
    | none =>
      have hln : ln = [b2] := by
        rw [show selected_chain s (n + 1) b2 = some [b2] from by
          simp [selected_chain, hrel]] at h
        exact (Option.some_inj.mp h).symm
      subst hln
      by_cases hmem : b2 ∈ anc1
      · rw [show find_common_walk s anc1 (n + 1) b2 = some (.ok b2) from by
          simp [find_common_walk, hmem]]
        simp [List.find?, hmem]
      · rw [show find_common_walk s anc1 (n + 1) b2 =
          some (.error ConsensusError.NoCommonAncestor) from by
          simp [find_common_walk, hmem, hrel]]
        simp [List.find?, hmem]
    | some r =>
      cases hsp : r.selected_parent with
      | none =>
        have hln : ln = [b2] := by
          rw [show selected_chain s (n + 1) b2 = some [b2] from by
            simp [selected_chain, hrel, hsp]] at h
          exact (Option.some_inj.mp h).symm
        subst hln
        by_cases hmem : b2 ∈ anc1
        · rw [show find_common_walk s anc1 (n + 1) b2 = some (.ok b2) from by
            simp [find_common_walk, hmem]]
          simp [List.find?, hmem]
        · rw [show find_common_walk s anc1 (n + 1) b2 =
            some (.error ConsensusError.NoCommonAncestor) from by
            simp [find_common_walk, hmem, hrel, hsp]]
          simp [List.find?, hmem]
      | some p =>
        have hstep : selected_chain s (n + 1) b2 =
            (selected_chain s n p).map (b2 :: ·) := by
          simp [selected_chain, hrel, hsp]
        rw [hstep] at h
        cases hchain : selected_chain s n p with
        | none =>
          rw [hchain] at h
          cases h
        | some ln' =>
          rw [hchain] at h
          have hln : ln = b2 :: ln' := by
            simpa using h.symm
          subst hln
          by_cases hmem : b2 ∈ anc1
          · rw [show find_common_walk s anc1 (n + 1) b2 = some (.ok b2) from by
              simp [find_common_walk, hmem]]
            simp [List.find?, hmem]
          · rw [show find_common_walk s anc1 (n + 1) b2 =
              find_common_walk s anc1 n p from by
              simp [find_common_walk, hmem, hrel, hsp]]
            rw [ih p ln' hchain anc1]
            simp [List.find?, hmem]

theorem chain_down_spec (s : GhostDag) :
    ∀ fuel b l, selected_chain s fuel b = some l →
      ∀ c, chain_down s c fuel b = some (l.takeWhile (fun x => decide (x ≠ c))) := by
  intro fuel
  induction fuel with
  | zero =>
    intro b l h
    cases h
  | succ n ih =>
    intro b l h c
    cases hrel : s.get_relations b with
    | none =>
      have hl : l = [b] := by
        rw [show selected_chain s (n + 1) b = some [b] from by
          simp [selected_chain, hrel]] at h
        exact (Option.some_inj.mp h).symm
      subst hl
      by_cases hbc : b = c
      · subst hbc
        rw [show chain_down s b (n + 1) b = some [] from by simp [chain_down]]
        simp [List.takeWhile]
      · rw [show chain_down s c (n + 1) b = some [b] from by
          simp [chain_down, hbc, hrel]]
        simp [List.takeWhile, hbc]
    | some r =>
      cases hsp : r.selected_parent with
      | none =>
        have hl : l = [b] := by
          rw [show selected_chain s (n + 1) b = some [b] from by
            simp [selected_chain, hrel, hsp]] at h
          exact (Option.some_inj.mp h).symm
        subst hl
        by_cases hbc : b = c
        · subst hbc
          rw [show chain_down s b (n + 1) b = some [] from by simp [chain_down]]
          simp [List.takeWhile]
        · rw [show chain_down s c (n + 1) b = some [b] from by
            simp [chain_down, hbc, hrel, hsp]]
          simp [List.takeWhile, hbc]
      | some p =>
        have hstep : selected_chain s (n + 1) b =
            (selected_chain s n p).map (b :: ·) := by
          simp [selected_chain, hrel, hsp]
        rw [hstep] at h
        cases hchain : selected_chain s n p with
        | none =>
          rw [hchain] at h
          cases h
        | some l' =>
          rw [hchain] at h
          have hl : l = b :: l' := by
            simpa using h.symm
          subst hl
          by_cases hbc : b = c
          · subst hbc
            rw [show chain_down s b (n + 1) b = some [] from by simp [chain_down]]
            simp [List.takeWhile]
          · rw [show chain_down s c (n + 1) b =
              (chain_down s c n p).map (b :: ·) from by
              simp [chain_down, hbc, hrel, hsp]]
            rw [ih p l' hchain c]
            simp [List.takeWhile, hbc]

/-- C6: whenever the selected-parent chains of the two tips terminate (the
Rust loops run to completion), `calculate_reorg_path` produces `removed` =
the chain from `old_tip` exclusive down to the found common ancestor `c`
ordered from tip toward ancestor, and `added` = the chain from `new_tip`
exclusive down to `c` ordered from ancestor toward tip; `handle_reorg` then
writes the virtual state for `new_tip`.  `NoCommonAncestor` is returned
exactly when the two chains are disjoint. -/
theorem handle_reorg_spec (s : GhostDag) (fuel : Nat) (old_tip new_tip : Nat)
    (lo ln : List Nat)
    (ho : selected_chain s fuel old_tip = some lo)
    (hn : selected_chain s fuel new_tip = some ln) :
    (∀ c, ln.find? (fun x => decide (x ∈ lo)) = some c →
      c ∈ lo ∧ c ∈ ln ∧
      calculate_reorg_path s fuel old_tip new_tip =
        some (Except.ok ((ln.takeWhile (fun x => decide (x ≠ c))).reverse,
          lo.takeWhile (fun x => decide (x ≠ c)))) ∧
      handle_reorg s fuel old_tip new_tip =
        some (Except.ok (calculate_virtual_state_for_tip s new_tip)) ∧
      (calculate_virtual_state_for_tip s new_tip).selected_tip = new_tip) ∧
    (ln.find? (fun x => decide (x ∈ lo)) = none →
      (∀ x ∈ ln, x ∉ lo) ∧
      find_common_ancestor s fuel old_tip new_tip =
        some (Except.error ConsensusError.NoCommonAncestor) ∧
      handle_reorg s fuel old_tip new_tip =
        some (Except.error ConsensusError.NoCommonAncestor)) := by
  have hfca : find_common_ancestor s fuel old_tip new_tip =
      some (match ln.find? (fun x => decide (x ∈ lo)) with
        | some c => Except.ok c
        | none => Except.error ConsensusError.NoCommonAncestor) := by
    unfold find_common_ancestor
    rw [ho]
    exact find_common_walk_spec s fuel new_tip ln hn lo
  constructor
  · intro c hc
    have hfca' : find_common_ancestor s fuel old_tip new_tip = some (Except.ok c) := by
      rw [hfca, hc]
    have hcl : c ∈ lo := by
      have := List.find?_some hc
      simpa using this
    have hcln : c ∈ ln := List.mem_of_find?_eq_some hc
    have hpath : calculate_reorg_path s fuel old_tip new_tip =
        some (Except.ok ((ln.takeWhile (fun x => decide (x ≠ c))).reverse,
          lo.takeWhile (fun x => decide (x ≠ c)))) := by
      unfold calculate_reorg_path
      rw [hfca']
      show (match chain_down s c fuel old_tip, chain_down s c fuel new_tip with
        | some removed, some added => some (Except.ok (added.reverse, removed))
        | _, _ => none) = _
      rw [chain_down_spec s fuel old_tip lo ho c,
        chain_down_spec s fuel new_tip ln hn c]
    refine ⟨hcl, hcln, hpath, ?_, rfl⟩
    unfold handle_reorg
    rw [hpath]
  · intro hnone
    have hfca' : find_common_ancestor s fuel old_tip new_tip =
        some (Except.error ConsensusError.NoCommonAncestor) := by
      rw [hfca, hnone]
    refine ⟨?_, hfca', ?_⟩
    · intro x hx hxlo
      have := List.find?_eq_none.mp hnone x hx
      simp at this
      exact this hxlo
    · unfold handle_reorg calculate_reorg_path
      rw [hfca']

theorem handle_reorg_spec_witness :
    (10 : Nat) ∈ [(12 : Nat), 11, 10] ∧ (10 : Nat) ∈ [(22 : Nat), 21, 10] ∧
    calculate_reorg_path reorgDag 10 12 22 =
      some (Except.ok ([21, 22], [12, 11])) ∧
    handle_reorg reorgDag 10 12 22 =
      some (Except.ok (calculate_virtual_state_for_tip reorgDag 22)) ∧
    (calculate_virtual_state_for_tip reorgDag 22).selected_tip = 22 :=
  (handle_reorg_spec reorgDag 10 12 22 [12, 11, 10] [22, 21, 10]
    (by decide) (by decide)).1 10 (by decide)
